import Mathlib

/-!
Verification of the approximate query engine (parser, samplers, aggregators,
executor, and standalone probabilistic primitives).

Shallow embedding conventions:
* C++ `std::string` is modelled as `List Char`; keyword matching mirrors the
  source's upper-cased searches.
* `double` arithmetic is modelled over `ℚ` (exact rational arithmetic standing
  in for IEEE doubles; none of the verified properties depend on rounding).
* `std::stod` is modelled by `parseNum`: leading whitespace, optional sign,
  digits with an optional fractional part; trailing characters are ignored,
  and a string with no leading numeric part yields `none` (the thrown
  `std::invalid_argument`, which the executor catches and turns into a skip).
  The exponent/hex forms accepted by `stod` are not modelled; no claim
  depends on them.
* `std::unordered_map` is modelled as an association list with first-match
  lookup; `operator[]`-style insertion replaces an existing binding in place.
* Random draws (`std::mt19937` through a distribution) are modelled as
  explicit draw streams passed to the sampler, quantified universally.
-/

namespace AQE

/-- Convert a string literal to the `List Char` representation used
throughout the embedding. -/
def strL (s : String) : List Char := s.toList

/-! ### String utilities (src/utils/string_utils.hpp) -/

/-- The whitespace set used by `aqe::utils::trim` (`" \t\n\r"`). -/
def isSpaceC (c : Char) : Bool := c = ' ' || c = '\t' || c = '\n' || c = '\r'

/-- `aqe::utils::trim`: drop leading and trailing characters from `" \t\n\r"`. -/
def trimL (s : List Char) : List Char :=
  ((s.dropWhile isSpaceC).reverse.dropWhile isSpaceC).reverse

/-- `aqe::utils::toUpper`. -/
def upperL (s : List Char) : List Char := s.map Char.toUpper

/-- Does `p` occur at the head of `s`? (used to model `std::string::find`). -/
def startsWithL : List Char → List Char → Bool
  | [], _ => true
  | _ :: _, [] => false
  | p :: ps, c :: cs => p = c && startsWithL ps cs

/-- `std::string::find`: index of the first occurrence of `needle` in `hay`,
`none` for `npos`. -/
def strFind (hay needle : List Char) : Option ℕ :=
  match hay with
  | [] => if needle.isEmpty then some 0 else none
  | _ :: t =>
    if startsWithL needle hay then some 0
    else (strFind t needle).map (· + 1)

/-- One splitting step of `std::getline(ss, part, ',')`: split at every
delimiter (a trailing delimiter does not open a final empty field, matching
the stream semantics used by `parseColumns`/`splitCSV`). -/
def splitAll (d : Char) : List Char → List (List Char)
  | [] => [[]]
  | c :: t =>
    if c = d then [] :: splitAll d t
    else
      match splitAll d t with
      | h :: r => (c :: h) :: r
      | [] => [[c]]

/-- `std::getline`-driven comma splitting as used throughout the source:
empty input yields no fields, and a trailing delimiter yields no final
empty field. -/
def splitCpp (d : Char) (s : List Char) : List (List Char) :=
  if s = [] then []
  else if s.getLast? = some d then (splitAll d s).dropLast
  else splitAll d s

/-! ### Numeric parsing -/

def isDigitC (c : Char) : Bool := '0' ≤ c && c ≤ '9'

/-- `[A-Za-z0-9_]`, the ECMAScript `\w` class used by the query regexes. -/
def isWordC (c : Char) : Bool :=
  ('a' ≤ c && c ≤ 'z') || ('A' ≤ c && c ≤ 'Z') || isDigitC c || c = '_'

/-- Numeric value of a digit string. -/
def digitsVal (l : List Char) : ℕ :=
  l.foldl (fun n c => n * 10 + (c.toNat - 48)) 0

/-- Model of `std::stod` restricted to sign/digits/fraction (see module
comment): returns `none` exactly when `stod` would throw, and otherwise the
value of the longest numeric head of the string. -/
def parseNum (s : List Char) : Option ℚ :=
  let t := s.dropWhile isSpaceC
  let sign : ℚ := if t.head? = some '-' then -1 else 1
  let t1 := if t.head? = some '-' || t.head? = some '+' then t.tail else t
  let intPart := t1.takeWhile isDigitC
  let r1 := t1.dropWhile isDigitC
  let fracPart := if r1.head? = some '.' then r1.tail.takeWhile isDigitC else []
  if intPart = [] && fracPart = [] then none
  else
    some (sign * ((digitsVal intPart : ℚ) +
      (digitsVal fracPart : ℚ) / (10 : ℚ) ^ fracPart.length))

/-! ### Query model (src/query/parser.hpp) -/

inductive AggregationType
  | COUNT | SUM | AVG | MIN | MAX | NONE
deriving DecidableEq, Repr

inductive SamplingMethod
  | NONE | RANDOM | SYSTEMATIC | RESERVOIR | STRATIFIED
deriving DecidableEq, Repr

/-- `aqe::query::Column` (the C++ field `alias` is spelled `colAlias`). -/
structure Column where
  name : List Char
  colAlias : List Char
  aggregation : AggregationType
  is_star : Bool
deriving DecidableEq, Repr

/-- The `Column(n, a, agg)` constructor: `is_star` is `n == "*"`. -/
def mkColumn (n : List Char) (a : List Char := [])
    (agg : AggregationType := .NONE) : Column :=
  ⟨n, a, agg, n = strL "*"⟩

/-- `aqe::query::Sampling`. -/
structure Sampling where
  method : SamplingMethod
  rate : ℚ
  size : ℕ
  stratification_column : List Char
deriving DecidableEq, Repr

/-- The `Sampling()` default constructor: `method NONE, rate 1.0, size 0`. -/
def Sampling.initS : Sampling := ⟨.NONE, 1, 0, []⟩

/-- `Sampling::validate`: bounds are checked only for `RANDOM` (rate) and
`RESERVOIR` (size). -/
def Sampling.validateS (s : Sampling) : Except String Unit :=
  if s.method = .RANDOM ∧ (s.rate ≤ 0 ∨ 1 < s.rate) then
    .error "Sampling rate must be between 0 and 1"
  else if s.method = .RESERVOIR ∧ s.size = 0 then
    .error "Reservoir sample size must be greater than 0"
  else .ok ()

/-- `aqe::query::Query`. -/
structure Query where
  columns : List Column
  table_name : List Char
  group_by_columns : List (List Char)
  sampling : Sampling
deriving DecidableEq, Repr

/-- `Query::validate`. -/
def Query.validateQ (q : Query) : Except String Unit :=
  if q.table_name = [] then .error "Table name cannot be empty"
  else if (q.columns.any fun c => c.aggregation ≠ .NONE) ∧
      (q.columns.any fun c => c.aggregation = .NONE ∧ c.name ≠ strL "*") ∧
      q.group_by_columns = [] then
    .error "Queries with both aggregated and non-aggregated columns require a GROUP BY clause."
  else q.sampling.validateS

/-! ### Parser (src/query/parser.hpp, `QueryParser`) -/

/-- Case-insensitive comparison of `kw` against the head of `s`, mirroring a
match of the upper-cased pattern against the upper-cased input. -/
def startsWithCI (kw : String) (s : List Char) : Bool :=
  startsWithL (strL kw) (upperL s)

/-- Result of matching the aggregate-column regex
`(COUNT|SUM|AVG|MIN|MAX)\s*\(([^)]+)\)(?:\s+AS\s+([\w]+))?` against an
entire (trimmed) column string. -/
def matchAgg (s : List Char) : Option (AggregationType × List Char × Option (List Char)) :=
  let tryFunc (kw : String) (agg : AggregationType) :
      Option (AggregationType × List Char × Option (List Char)) :=
    if startsWithCI kw s then
      let rest := s.drop kw.length
      let rest := rest.dropWhile isSpaceC
      match rest with
      | '(' :: r1 =>
        let inner := r1.takeWhile (fun c => c ≠ ')')
        if inner = [] then none
        else
          match r1.dropWhile (fun c => c ≠ ')') with
          | ')' :: r2 =>
            if r2 = [] then some (agg, inner, none)
            else
              -- the optional `\s+AS\s+([\w]+)` group must consume the rest
              let sp := r2.takeWhile isSpaceC
              let r3 := r2.dropWhile isSpaceC
              if sp = [] then none
              else if startsWithCI "AS" r3 then
                let r4 := r3.drop 2
                let sp2 := r4.takeWhile isSpaceC
                let r5 := r4.dropWhile isSpaceC
                let w := r5.takeWhile isWordC
                if sp2 ≠ [] ∧ w ≠ [] ∧ r5.dropWhile isWordC = [] then
                  some (agg, inner, some w)
                else none
              else none
          | _ => none
      | _ => none
    else none
  (tryFunc "COUNT" .COUNT) <|> (tryFunc "SUM" .SUM) <|> (tryFunc "AVG" .AVG) <|>
    (tryFunc "MIN" .MIN) <|> (tryFunc "MAX" .MAX)

/-- The canonical upper-case spelling of an aggregation function. -/
def aggFuncName : AggregationType → List Char
  | .COUNT => strL "COUNT"
  | .SUM => strL "SUM"
  | .AVG => strL "AVG"
  | .MIN => strL "MIN"
  | .MAX => strL "MAX"
  | .NONE => []

/-- `QueryParser::parseColumns`: split the select clause on commas and build
one `Column` per non-empty trimmed part. -/
def parseColumns (columns_str : List Char) : List Column :=
  (splitCpp ',' columns_str).foldl
    (fun acc part =>
      let column_str := trimL part
      if column_str = [] then acc
      else
        match matchAgg column_str with
        | some (agg, innerRaw, al) =>
          let inner := trimL innerRaw
          let alias0 := match al with
            | some a => a
            | none => aggFuncName agg ++ ('(' :: upperL inner) ++ [')']
          acc ++ [mkColumn inner alias0 agg]
        | none => acc ++ [mkColumn column_str]) []

/-- One alternative of the sampling regex, matched at a fixed position. -/
inductive SampleShape
  | res (n : ℕ)
  | sys (n : ℕ)
  | strat (col : List Char) (pct : ℚ)
  | rand (pct : ℚ)
deriving DecidableEq, Repr

/-- Match `\d+(\.\d+)?` at the head of `s`; returns the value and the rest. -/
def matchNumber (s : List Char) : Option (ℚ × List Char) :=
  let d1 := s.takeWhile isDigitC
  if d1 = [] then none
  else
    let r1 := s.dropWhile isDigitC
    match r1 with
    | '.' :: r2 =>
      let d2 := r2.takeWhile isDigitC
      if d2 = [] then some ((digitsVal d1 : ℚ), r1)
      else some ((digitsVal d1 : ℚ) + (digitsVal d2 : ℚ) / (10 : ℚ) ^ d2.length,
        r2.dropWhile isDigitC)
    | _ => some ((digitsVal d1 : ℚ), r1)

/-- Match `KEYWORD\s+(\d+)` at the head of `s` (case-insensitive). -/
def matchKwInt (kw : String) (s : List Char) : Option ℕ :=
  if startsWithCI kw s then
    let r := s.drop kw.length
    let sp := r.takeWhile isSpaceC
    let r1 := r.dropWhile isSpaceC
    let d := r1.takeWhile isDigitC
    if sp ≠ [] ∧ d ≠ [] then some (digitsVal d) else none
  else none

/-- Try the four alternatives of the sampling regex at one position, in the
source's alternation order. -/
def matchSamplingAt (s : List Char) : Option SampleShape :=
  match matchKwInt "RESERVOIR" s with
  | some n => some (.res n)
  | none =>
  match matchKwInt "SYSTEMATIC" s with
  | some n => some (.sys n)
  | none =>
  (if startsWithCI "STRATIFIED" s then
    let r := s.drop 10
    let sp := r.takeWhile isSpaceC
    let r1 := r.dropWhile isSpaceC
    if sp ≠ [] ∧ startsWithCI "BY" r1 then
      let r2 := r1.drop 2
      let sp2 := r2.takeWhile isSpaceC
      let r3 := r2.dropWhile isSpaceC
      let w := r3.takeWhile isWordC
      if sp2 ≠ [] ∧ w ≠ [] then
        let r4 := r3.dropWhile isWordC
        let sp3 := r4.takeWhile isSpaceC
        let r5 := r4.dropWhile isSpaceC
        if sp3 = [] then none
        else
          match matchNumber r5 with
          | some (v, '%' :: _) => some (.strat w v)
          | _ => none
      else none
    else none
  else none) <|>
  (match matchNumber s with
   | some (v, '%' :: _) => some (.rand v)
   | _ => none)

/-- `std::regex_search` with the sampling regex: first matching position wins
(leading `\s*` in the pattern is absorbed by the position scan). -/
def scanSampling : List Char → Option SampleShape
  | [] => none
  | s@(_ :: t) => matchSamplingAt s <|> scanSampling t

/-- `QueryParser::parseSampling`: note that the `SYSTEMATIC` branch stores
its integer in `size` and leaves `rate` untouched. -/
def parseSampling (q : Query) (sample_str : List Char) : Except String Query :=
  match scanSampling sample_str with
  | some (.res n) => .ok { q with sampling := { q.sampling with method := .RESERVOIR, size := n } }
  | some (.sys n) => .ok { q with sampling := { q.sampling with method := .SYSTEMATIC, size := n } }
  | some (.strat col pct) => .ok { q with sampling :=
      { q.sampling with method := .STRATIFIED, stratification_column := col, rate := pct / 100 } }
  | some (.rand pct) => .ok { q with sampling :=
      { q.sampling with method := .RANDOM, rate := pct / 100 } }
  | none => .error "Invalid SAMPLE clause format"

/-- `QueryParser::parseGroupBy`. -/
def parseGroupBy (group_by_str : List Char) : List (List Char) :=
  (splitCpp ',' group_by_str).foldl
    (fun acc part =>
      let t := trimL part
      if t = [] then acc else acc ++ [t]) []

/-- `std::min` over `size_t` positions where `none` stands for `npos`. -/
def optMinPos : Option ℕ → Option ℕ → Option ℕ
  | none, b => b
  | a, none => a
  | some a, some b => some (min a b)

/-- `QueryParser::parseFromAndOtherClauses`. -/
def parseFromAndOtherClauses (q : Query) (rest_str : List Char) : Except String Query :=
  let upper_rest := upperL rest_str
  let group_by_pos := strFind upper_rest (strL "GROUP BY")
  let sample_pos := strFind upper_rest (strL "SAMPLE")
  let table_name := trimL (match optMinPos group_by_pos sample_pos with
    | none => rest_str
    | some e => rest_str.take e)
  let q := { q with table_name := table_name }
  let q := match group_by_pos with
    | none => q
    | some g =>
      let clause := match sample_pos with
        | some s => if g < s then (rest_str.drop (g + 8)).take (s - (g + 8))
          else rest_str.drop (g + 8)
        | none => rest_str.drop (g + 8)
      { q with group_by_columns := parseGroupBy clause }
  match sample_pos with
  | none => .ok q
  | some s => parseSampling q (rest_str.drop (s + 6))

/-- `QueryParser::findKeyword` on the upper-cased query. -/
def findKeyword (upper : List Char) (kw : String) : Except String ℕ :=
  match strFind upper (strL kw) with
  | some p => .ok p
  | none => .error ("Missing " ++ kw ++ " clause")

/-- The body of `QueryParser::parse` before validation. `substr(pos, cnt)`
clamps an (underflowed) huge count to the end of the string, which the `take`
below reproduces via the `≤` test. -/
def parseRaw (query_str : List Char) : Except String Query :=
  match findKeyword (upperL query_str) "SELECT" with
  | .error e => .error e
  | .ok select_pos =>
  match findKeyword (upperL query_str) "FROM" with
  | .error e => .error e
  | .ok from_pos =>
    let select_clause :=
      if select_pos + 6 ≤ from_pos then
        (query_str.drop (select_pos + 6)).take (from_pos - (select_pos + 6))
      else query_str.drop (select_pos + 6)
    let q0 : Query :=
      { columns := parseColumns select_clause
        table_name := []
        group_by_columns := []
        sampling := Sampling.initS }
    parseFromAndOtherClauses q0 (query_str.drop (from_pos + 4))

/-- `QueryParser::parse`: parse, then `Query::validate`; every failure is
rethrown as a `ParseError` with a prefixed message. -/
def parse (query_str : List Char) : Except String Query :=
  match parseRaw query_str with
  | .error e => .error ("Failed to parse query: " ++ e)
  | .ok q =>
    match q.validateQ with
    | .error e => .error ("Failed to parse query: " ++ e)
    | .ok _ => .ok q

/-! ### Aggregators (src/query/aggregator.hpp) -/

/-- The state of one `Aggregator` object. The `MIN`/`MAX` seed values of the
C++ fields (`numeric_limits` max/lowest) are never read — `addValue` installs
the first value and `getResult` returns 0 while unseen — so the unseen payload
is modelled as 0. -/
inductive AggState
  | count (n : ℕ)
  | sum (s : ℚ)
  | avg (s : ℚ) (n : ℕ)
  | amin (m : ℚ) (has_value : Bool)
  | amax (m : ℚ) (has_value : Bool)
deriving DecidableEq, Repr

/-- The freshly constructed aggregator of each kind (`AggregateResult::
addAggregator`'s `switch`); `NONE` falls through to `default` and creates
nothing. -/
def aggInit : AggregationType → Option AggState
  | .COUNT => some (.count 0)
  | .SUM => some (.sum 0)
  | .AVG => some (.avg 0 0)
  | .MIN => some (.amin 0 false)
  | .MAX => some (.amax 0 false)
  | .NONE => none

/-- `Aggregator::addValue`. -/
def aggAdd (s : AggState) (x : ℚ) : AggState :=
  match s with
  | .count n => .count (n + 1)
  | .sum t => .sum (t + x)
  | .avg t n => .avg (t + x) (n + 1)
  | .amin m h => .amin (if h then min m x else x) true
  | .amax m h => .amax (if h then max m x else x) true

/-- `Aggregator::getResult`. -/
def aggResult : AggState → ℚ
  | .count n => (n : ℚ)
  | .sum t => t
  | .avg t n => if 0 < n then t / (n : ℚ) else 0
  | .amin m h => if h then m else 0
  | .amax m h => if h then m else 0

/-- `unordered_map` assignment `m[k] = v`: replace the binding when present,
append otherwise. -/
def mapSet {β : Type} : List (List Char × β) → List Char → β → List (List Char × β)
  | [], k, v => [(k, v)]
  | (k', v') :: t, k, v =>
    if k' = k then (k, v) :: t else (k', v') :: mapSet t k v

/-- `aqe::query::AggregateResult`. -/
structure AggregateResult where
  aggregators : List (List Char × AggState)
  group_by_values : List (List Char)
deriving DecidableEq, Repr

/-- `AggregateResult::addAggregator`. -/
def AggregateResult.addAggregator (r : AggregateResult) (column : List Char)
    (t : AggregationType) : AggregateResult :=
  match aggInit t with
  | none => r
  | some st => { r with aggregators := mapSet r.aggregators column st }

/-- `AggregateResult::addValue`: update the matching aggregator, silently
ignore unknown keys. -/
def arAddValue : List (List Char × AggState) → List Char → ℚ → List (List Char × AggState)
  | [], _, _ => []
  | (k', s) :: t, k, x =>
    if k' = k then (k', aggAdd s x) :: t else (k', s) :: arAddValue t k x

def AggregateResult.addValue (r : AggregateResult) (column : List Char) (x : ℚ) :
    AggregateResult :=
  { r with aggregators := arAddValue r.aggregators column x }

/-- `AggregateResult::getResult`: 0.0 for an absent key. -/
def AggregateResult.getResultA (r : AggregateResult) (column : List Char) : ℚ :=
  match r.aggregators.lookup column with
  | some s => aggResult s
  | none => 0

/-! ### Executor (src/query/executor.hpp) -/

/-- `aqe::query::DataRow`: an unordered map from column name to cell text. -/
abbrev Row : Type := List (List Char × List Char)

/-- `row.values.find(k)` on a `DataRow`. -/
def rowFind (r : Row) (k : List Char) : Option (List Char) :=
  List.lookup k r

/-- The per-row group key built by `QueryExecutor::processRow`: `"default"`
without GROUP BY, otherwise each group value (or `NULL`) followed by `|`. -/
def groupKey (q : Query) (r : Row) : List Char :=
  if q.group_by_columns = [] then strL "default"
  else q.group_by_columns.foldl
    (fun acc gc => acc ++ ((rowFind r gc).getD (strL "NULL")) ++ ['|']) []

/-- The parallel list of group-by cell values (with the `NULL` placeholder). -/
def groupValues (q : Query) (r : Row) : List (List Char) :=
  q.group_by_columns.map (fun gc => (rowFind r gc).getD (strL "NULL"))

/-- The executor's bundle map `group_results`. -/
abbrev Groups : Type := List (List Char × AggregateResult)

/-- The fresh bundle built on first sighting of a group: one aggregator per
aggregated column, registered under the column's source name `col.name`. -/
def freshBundle (q : Query) (r : Row) : AggregateResult :=
  { aggregators := (q.columns.foldl
      (fun (a : AggregateResult) c =>
        if c.aggregation ≠ .NONE then a.addAggregator c.name c.aggregation else a)
      ⟨[], []⟩).aggregators
    group_by_values := groupValues q r }

/-- The get-or-create step of `processRow`. -/
def ensureGroup (q : Query) (r : Row) (g : Groups) : Groups :=
  if (List.lookup (groupKey q r) g).isSome then g
  else mapSet g (groupKey q r) (freshBundle q r)

/-- The per-column update inside `processRow`'s aggregation loop: `COUNT`
adds 1.0 unconditionally; other aggregates add the `stod`-parsed cell and
skip missing/unparsable cells. -/
def applyCol (r : Row) (b : AggregateResult) (c : Column) : AggregateResult :=
  if c.aggregation = .NONE then b
  else if c.aggregation = .COUNT then b.addValue c.name 1
  else
    match rowFind r c.name with
    | none => b
    | some cell =>
      match parseNum cell with
      | none => b
      | some v => b.addValue c.name v

/-- Update the bundle stored at `k`. -/
def mapUpdate {β : Type} (g : List (List Char × β)) (k : List Char) (f : β → β) :
    List (List Char × β) :=
  g.map (fun p => if p.1 = k then (p.1, f p.2) else p)

/-- `QueryExecutor::processRow`. -/
def processRow (q : Query) (g : Groups) (r : Row) : Groups :=
  mapUpdate (ensureGroup q r g) (groupKey q r)
    (fun b => q.columns.foldl (applyCol r) b)

/-- The executor's dispatch pass over the processed rows. -/
def dispatchAll (q : Query) (rows : List Row) (g : Groups) : Groups :=
  rows.foldl (processRow q) g

/-- A result cell before `std::to_string`: raw column text, or the exact
numeric value that would be converted. -/
inductive Cell
  | raw (s : List Char)
  | num (v : ℚ)
deriving DecidableEq, Repr

/-- One materialized result row (`execute`'s result-building loop): raw
columns read the group-by map (empty default), aggregated columns read the
bundle keyed by `col.name`, and COUNT/SUM are multiplied by the scaling
factor when a sampler was used. -/
def materializeRow (q : Query) (active : Bool) (factor : ℚ)
    (b : AggregateResult) : List Cell :=
  let group_by_map := q.group_by_columns.zip b.group_by_values
  q.columns.map (fun c =>
    if c.aggregation = .NONE then Cell.raw ((group_by_map.lookup c.name).getD [])
    else
      let v := b.getResultA c.name
      Cell.num (if active ∧ (c.aggregation = .COUNT ∨ c.aggregation = .SUM)
        then v * factor else v))

/-- `aqe::query::QueryResult`. -/
structure QueryResult where
  column_names : List (List Char)
  rows : List (List Cell)
  is_approximate : Bool
deriving DecidableEq, Repr

/-- The body of `QueryExecutor::execute` downstream of the sampler: `active`
is whether a sampler exists, `processed` is the processed row set
(`sampler->getSample()` or the input data), and `rate` is the sampler's
reported rate. `scaling_factor` is 1 unless the rate is positive. -/
def executeCore (q : Query) (active : Bool) (processed : List Row) (rate : ℚ) :
    QueryResult :=
  let scaling_factor : ℚ := if 0 < rate then 1 / rate else 1
  let groups := dispatchAll q processed []
  { column_names := q.columns.map (fun c => if c.colAlias = [] then c.name else c.colAlias)
    rows := groups.map (fun p => materializeRow q active scaling_factor p.2)
    is_approximate := active }

/-- `execute` when `query.sampling.method == NONE`: no sampler, the processed
set is the input data, and no rescaling happens. -/
def executeNoSampling (q : Query) (data : List Row) : QueryResult :=
  executeCore q false data 1

/-! ### Samplers (src/core/sampling.hpp) -/

/-- `core::SystematicSampling` state. -/
structure SysState (α : Type) where
  step_size : ℕ
  current_count : ℕ
  sample : List α
deriving Repr

/-- `SystematicSampling::add`. -/
def sysAdd {α : Type} (s : SysState α) (item : α) : SysState α :=
  let c := s.current_count + 1
  { s with current_count := c
           sample := if 0 < c ∧ c % s.step_size = 0 then s.sample ++ [item] else s.sample }

/-- Feed a list of rows through a systematic sampler. -/
def sysRun {α : Type} (s : SysState α) : List α → SysState α
  | [] => s
  | x :: t => sysRun (sysAdd s x) t

/-- `SystematicSampling::getSamplingRate`. -/
def sysRate {α : Type} (s : SysState α) : ℚ := 1 / (s.step_size : ℚ)

/-- The step the executor passes to the systematic sampler:
`static_cast<size_t>(1.0 / sampling->rate)` (truncation toward zero). -/
def sysStepOf (sampling : Sampling) : ℕ := (1 / sampling.rate).floor.toNat

/-- `execute` when `query.sampling.method == SYSTEMATIC`: build the sampler
from `1.0 / rate`, feed the whole dataset, and process its sample with the
reported rate. -/
def executeSystematic (q : Query) (data : List Row) : QueryResult :=
  let s := sysRun ⟨sysStepOf q.sampling, 0, []⟩ data
  executeCore q true s.sample (sysRate s)

/-- `core::ReservoirSample` state. -/
structure ResState (α : Type) where
  reservoir : List α
  max_size : ℕ
  total_seen : ℕ
deriving Repr

/-- `ReservoirSample::add` with the uniform draw `j` from `[0, total_seen)`
made explicit. -/
def resAdd {α : Type} (r : ResState α) (item : α) (j : ℕ) : ResState α :=
  let total := r.total_seen + 1
  if r.reservoir.length < r.max_size then
    { r with reservoir := r.reservoir ++ [item], total_seen := total }
  else
    { r with reservoir := if j < r.max_size then r.reservoir.set j item else r.reservoir
             total_seen := total }

/-- Feed a list of rows through a reservoir, drawing `draw r.total_seen` at
each step (any draw stream is admissible). -/
def resRun {α : Type} (draw : ℕ → ℕ) (r : ResState α) : List α → ResState α
  | [] => r
  | x :: t => resRun draw (resAdd r x (draw r.total_seen)) t

/-- `ReservoirSample::getSamplingRate`: `|buffer| / total_seen`, 0 when
nothing has been seen. -/
def resRate {α : Type} (r : ResState α) : ℚ :=
  if r.total_seen = 0 then 0 else (r.reservoir.length : ℚ) / (r.total_seen : ℚ)

/-! ### Count-Min Sketch (src/core/data_structures.hpp) -/

/-- `CountMinSketch::hash`: polynomial rolling hash over the item's bytes in
`uint32` arithmetic, seeded per row, reduced modulo the width. -/
def cmsHash (width : ℕ) (seed : ℕ) (item : List Char) : ℕ :=
  (item.foldl (fun h c => (h * 31 + c.toNat) % 2 ^ 32) (seed % 2 ^ 32)) % width

/-- A Count-Min sketch: each row pairs its hash seed with its counters
(the C++ parallel vectors `hash_seeds[i]` / `sketch[i]`). Counters are
`int64_t`; they are modelled over `ℤ`, with the no-overflow side condition
stated in the theorems. -/
structure CMS where
  width : ℕ
  rowsC : List (ℕ × List ℤ)
deriving DecidableEq, Repr

/-- The constructor: `depth` zeroed rows of `width` counters. -/
def CMS.init (w : ℕ) (seeds : List ℕ) : CMS :=
  ⟨w, seeds.map (fun sd => (sd, List.replicate w 0))⟩

/-- `M[i][h] += c` on one counter row. -/
def bumpAt (l : List ℤ) (i : ℕ) (c : ℤ) : List ℤ :=
  l.set i (l.getD i 0 + c)

/-- `CountMinSketch::add`. -/
def CMS.add (s : CMS) (item : List Char) (c : ℤ) : CMS :=
  ⟨s.width, s.rowsC.map (fun p => (p.1, bumpAt p.2 (cmsHash s.width p.1 item) c))⟩

/-- `CountMinSketch::estimate`: minimum over the rows, starting from
`INT64_MAX`. -/
def CMS.estimate (s : CMS) (item : List Char) : ℤ :=
  s.rowsC.foldl (fun m p => min m (p.2.getD (cmsHash s.width p.1 item) 0)) (2 ^ 63 - 1)

/-- A stream of `add(item, count)` calls. -/
def cmsAddAll (s : CMS) (ops : List (List Char × ℤ)) : CMS :=
  ops.foldl (fun a op => a.add op.1 op.2) s

/-- The total count added for one item by a stream. -/
def cmsTotalFor (x : List Char) (ops : List (List Char × ℤ)) : ℤ :=
  ((ops.filter (fun op => op.1 = x)).map (fun op => op.2)).sum

/-- The total count added by a stream across all items. -/
def cmsTotalAll (ops : List (List Char × ℤ)) : ℤ := (ops.map (fun op => op.2)).sum

/-! ### Bloom filter (src/core/sketching.hpp) -/

/-- `aqe::core::BloomFilter` state; the hash family (`hashers[i](item)`) is
passed as an explicit function `hf`. -/
structure BloomFilter where
  num_bits : ℕ
  bits : List Bool
deriving DecidableEq, Repr

/-- The constructor: `num_bits` cleared bits. -/
def BloomFilter.init (sz : ℕ) : BloomFilter := ⟨sz, List.replicate sz false⟩

/-- `BloomFilter::getIndex`. -/
def bloomIdx (hf : ℕ → List Char → ℕ) (nb : ℕ) (item : List Char) (i : ℕ) : ℕ :=
  hf i item % nb

/-- `BloomFilter::add`: set the three probed bits (NUM_HASH_FUNCTIONS = 3). -/
def BloomFilter.add (hf : ℕ → List Char → ℕ) (b : BloomFilter) (item : List Char) :
    BloomFilter :=
  ⟨b.num_bits,
    (List.range 3).foldl (fun bs i => bs.set (bloomIdx hf b.num_bits item i) true) b.bits⟩

/-- `BloomFilter::mightContain`: AND of the three probed bits. -/
def BloomFilter.mightContain (hf : ℕ → List Char → ℕ) (b : BloomFilter)
    (item : List Char) : Bool :=
  (List.range 3).all (fun i => b.bits.getD (bloomIdx hf b.num_bits item i) false)

/-- A stream of `add` calls. -/
def bloomAddAll (hf : ℕ → List Char → ℕ) (b : BloomFilter) (items : List (List Char)) :
    BloomFilter :=
  items.foldl (BloomFilter.add hf) b

/-! ### Spec-side helpers and concrete scenario data -/

/-- The numeric values of column `x` across a row list: exactly the cells
that are present and `stod`-parsable (the values the aggregators see). -/
def numericList (rows : List Row) (x : List Char) : List ℚ :=
  rows.filterMap (fun r => (rowFind r x).bind parseNum)

/-- Modelled from the spec: the rescaling the spec prescribes for one result
cell — multiply the cell by the factor when (and only when) its column is a
COUNT or SUM aggregate. Used to compare a sampled execution against an
unsampled one. -/
def specScaleCell (factor : ℚ) (c : Column) (cell : Cell) : Cell :=
  if c.aggregation = .COUNT ∨ c.aggregation = .SUM then
    match cell with
    | .num v => .num (v * factor)
    | .raw s => .raw s
  else cell

/-- Spec-side row rescaling: apply `specScaleCell` columnwise. -/
def specScaleRow (factor : ℚ) (cols : List Column) (row : List Cell) : List Cell :=
  List.zipWith (specScaleCell factor) cols row

/-- A two-column row of the §8 scenario table. -/
def mkRow2 (c v : String) : Row :=
  [(strL "category", strL c), (strL "value", strL v)]

/-- The five-row scenario table of §8. -/
def scenarioData : List Row :=
  [mkRow2 "A" "100", mkRow2 "B" "200", mkRow2 "A" "150", mkRow2 "B" "250", mkRow2 "C" "300"]

/-- Six rows used to exercise `SAMPLE SYSTEMATIC 3`. -/
def sixRows : List Row := scenarioData ++ [mkRow2 "C" "42"]

/-- A query projecting the single aggregate `t` of column `x` with the
canonical alias, as the parser would build it for `SELECT t(x) FROM data`. -/
def mkAggQuery (t : AggregationType) (x : List Char) : Query :=
  { columns := [mkColumn x (aggFuncName t ++ ('(' :: upperL x) ++ [')']) t]
    table_name := strL "data"
    group_by_columns := []
    sampling := Sampling.initS }

/-- The parse of `SELECT COUNT(value) FROM data`. -/
def countValueQuery : Query := mkAggQuery .COUNT (strL "value")

/-- The parse of `SELECT MIN(value), MAX(value) FROM data`. -/
def minMaxQuery : Query :=
  { columns := [mkColumn (strL "value") (strL "MIN(VALUE)") .MIN,
      mkColumn (strL "value") (strL "MAX(VALUE)") .MAX]
    table_name := strL "data"
    group_by_columns := []
    sampling := Sampling.initS }

/-- The parse of `SELECT COUNT(value) FROM data SAMPLE SYSTEMATIC 3`. -/
def sysQuery : Query :=
  { columns := [mkColumn (strL "value") (strL "COUNT(VALUE)") .COUNT]
    table_name := strL "data"
    group_by_columns := []
    sampling := { method := .SYSTEMATIC, rate := 1, size := 3, stratification_column := [] } }

/-- The parse of `SELECT COUNT(x) FROM t SAMPLE STRATIFIED BY c 150%`. -/
def stratQuery : Query :=
  { columns := [mkColumn (strL "x") (strL "COUNT(X)") .COUNT]
    table_name := strL "t"
    group_by_columns := []
    sampling := { method := .STRATIFIED, rate := 3 / 2, size := 0
                  stratification_column := strL "c" } }

/-- Does column `d` register or update an aggregator under key `k`?
(`d` is aggregated and its source name is `k`.) -/
def sameAggKey (k : List Char) (d : Column) : Bool :=
  decide (d.aggregation ≠ AggregationType.NONE) && decide (d.name = k)

/-- The aggregator state stored for key `col` in the bundle of group `key`. -/
def aggStateAt (g : Groups) (key col : List Char) : Option AggState :=
  (List.lookup key g).bind (fun b => List.lookup col b.aggregators)

/-- The per-row state transition of the single aggregator of a
one-aggregate query over column `x`: COUNT counts the row, every other kind
adds the cell's parsed numeric value and skips a missing or unparsable
cell. -/
def singleStep (t : AggregationType) (x : List Char) (s : AggState) (r : Row) : AggState :=
  if t = .COUNT then aggAdd s 1
  else
    match (rowFind r x).bind parseNum with
    | none => s
    | some v => aggAdd s v

/-- The parse of `SELECT SUM(value), AVG(value) FROM data`: two aggregates
over the same source column. -/
def sumAvgQuery : Query :=
  { columns := [mkColumn (strL "value") (strL "SUM(VALUE)") .SUM,
      mkColumn (strL "value") (strL "AVG(VALUE)") .AVG]
    table_name := strL "data"
    group_by_columns := []
    sampling := Sampling.initS }

/-- The parse of `SELECT COUNT(category), SUM(value) FROM data`: two
aggregates over distinct source columns. -/
def countSumQuery : Query :=
  { columns := [mkColumn (strL "category") (strL "COUNT(CATEGORY)") .COUNT,
      mkColumn (strL "value") (strL "SUM(VALUE)") .SUM]
    table_name := strL "data"
    group_by_columns := []
    sampling := Sampling.initS }

/-- The parse of `SELECT COUNT(x) FROM t SAMPLE 50%`. -/
def randQuery : Query :=
  { columns := [mkColumn (strL "x") (strL "COUNT(X)") .COUNT]
    table_name := strL "t"
    group_by_columns := []
    sampling := { method := .RANDOM, rate := 1 / 2, size := 0, stratification_column := [] } }

end AQE

deriving instance DecidableEq for Except

namespace AQE

/-! ## Theorems -/

theorem resAdd_total_seen {α : Type} (r : ResState α) (a : α) (j : ℕ) :
    (resAdd r a j).total_seen = r.total_seen + 1 := by
  unfold resAdd; split <;> rfl

theorem resAdd_max_size {α : Type} (r : ResState α) (a : α) (j : ℕ) :
    (resAdd r a j).max_size = r.max_size := by
  unfold resAdd; split <;> rfl

theorem resAdd_length {α : Type} (r : ResState α) (a : α) (j : ℕ)
    (h : r.reservoir.length = min r.total_seen r.max_size) :
    (resAdd r a j).reservoir.length = min (r.total_seen + 1) r.max_size := by
  unfold resAdd
  by_cases hlt : r.reservoir.length < r.max_size
  · rw [if_pos hlt]
    show (r.reservoir ++ [a]).length = _
    rw [List.length_append]
    simp only [List.length_cons, List.length_nil]
    omega
  · rw [if_neg hlt]
    show (if j < r.max_size then r.reservoir.set j a else r.reservoir).length = _
    by_cases hj : j < r.max_size
    · rw [if_pos hj, List.length_set]; omega
    · rw [if_neg hj]; omega

/-- `resRun` bookkeeping: the reservoir length is clamped at `max_size`, and
`total_seen` counts every added row. -/
theorem resRun_invariant {α : Type} (draw : ℕ → ℕ) :
    ∀ (items : List α) (r : ResState α),
      r.reservoir.length = min r.total_seen r.max_size →
      (resRun draw r items).reservoir.length
          = min (r.total_seen + items.length) r.max_size
        ∧ (resRun draw r items).total_seen = r.total_seen + items.length
        ∧ (resRun draw r items).max_size = r.max_size := by
  intro items
  induction items with
  | nil =>
    intro r h
    exact ⟨by simpa using h, rfl, rfl⟩
  | cons a t ih =>
    intro r h
    have hlen := resAdd_length r a (draw r.total_seen) h
    have hinv : (resAdd r a (draw r.total_seen)).reservoir.length
        = min (resAdd r a (draw r.total_seen)).total_seen
            (resAdd r a (draw r.total_seen)).max_size := by
      rw [hlen, resAdd_total_seen, resAdd_max_size]
    have ht := ih (resAdd r a (draw r.total_seen)) hinv
    simp only [resRun]
    rw [ht.1, ht.2.1, ht.2.2, resAdd_total_seen, resAdd_max_size]
    refine ⟨?_, ?_, rfl⟩ <;> simp only [List.length_cons] <;> omega

/-- C8. For every reservoir capacity `k` and every stream of `n` added rows
(under any draws), the sample size is `min n k` — in particular exactly `k`
once `n ≥ k` — and `getSamplingRate()` is `|buffer| / n` for `n > 0` and `0`
when nothing was added. -/
theorem C8_reservoir_size_and_rate {α : Type} (k : ℕ) (draw : ℕ → ℕ)
    (items : List α) :
    (resRun draw ⟨[], k, 0⟩ items).reservoir.length = min items.length k
    ∧ resRate (resRun draw ⟨[], k, 0⟩ items)
        = (if items.length = 0 then 0
           else ((resRun draw ⟨[], k, 0⟩ items).reservoir.length : ℚ)
             / (items.length : ℚ)) := by
  have h := resRun_invariant draw items ⟨[], k, 0⟩ (by simp)
  refine ⟨by simpa using h.1, ?_⟩
  unfold resRate
  rw [h.2.1]
  simp only [Nat.zero_add]

unseal Rat.mul Rat.add Rat.sub Rat.inv in
/-- C1 (counterexample). `SELECT COUNT(value) FROM data` parses to
`countValueQuery`, and executing it on the empty dataset yields an empty row
list, not the single row `[0]` the claim requires. -/
theorem C1_counterexample :
    parse (strL "SELECT COUNT(value) FROM data") = Except.ok countValueQuery
    ∧ (executeNoSampling countValueQuery []).rows = []
    ∧ (executeNoSampling countValueQuery []).rows.length = 0 := by
  refine ⟨by decide, rfl, rfl⟩

/-- C1 (amended). With an empty processed row set the executor dispatches no
row at all — there is no degenerate group-free pass — so `execute` returns
zero result rows regardless of the query, in particular for
`SELECT COUNT(*)` over an empty dataset with no sampling. -/
theorem C1_empty_input_yields_no_rows (q : Query) (active : Bool) (rate : ℚ) :
    (executeCore q active [] rate).rows = [] ∧ (executeNoSampling q []).rows = [] :=
  ⟨rfl, rfl⟩

unseal Rat.mul Rat.add Rat.sub Rat.inv in
/-- C2 (code evaluation at the failing input). `SELECT MIN(value), MAX(value)
FROM data` parses to `minMaxQuery`; on the five-row scenario table both
result cells carry 300, because both aggregators are registered under the
source-column key `value` and the MAX registration overwrites the MIN one.
The repository's own test `ExecutorHandlesMinAndMax` expects 100 and 300. -/
theorem C2_minmax_collision_eval :
    parse (strL "SELECT MIN(value), MAX(value) FROM data") = Except.ok minMaxQuery
    ∧ (executeNoSampling minMaxQuery scenarioData).rows
        = [[Cell.num 300, Cell.num 300]]
    ∧ (freshBundle minMaxQuery (mkRow2 "A" "100")).aggregators
        = [(strL "value", AggState.amax 0 false)] := by
  refine ⟨by decide, by decide, by decide⟩

unseal Rat.mul Rat.add Rat.sub Rat.inv in
/-- C3 (code evaluation at the failing input). `SAMPLE SYSTEMATIC 3` parses
with `size = 3` but leaves `rate` at its default 1, so the executor builds a
systematic sampler with step `⌊1.0 / rate⌋ = 1`, which admits all six of six
rows and reports rate 1 — not the 2 rows and rate 1/3 the claim requires. -/
theorem C3_systematic_step_eval :
    parse (strL "SELECT COUNT(value) FROM data SAMPLE SYSTEMATIC 3")
        = Except.ok sysQuery
    ∧ sysQuery.sampling.size = 3
    ∧ sysQuery.sampling.rate = 1
    ∧ sysStepOf sysQuery.sampling = 1
    ∧ (sysRun ⟨sysStepOf sysQuery.sampling, 0, []⟩ sixRows).sample.length = 6
    ∧ sysRate (sysRun ⟨sysStepOf sysQuery.sampling, 0, []⟩ sixRows) = 1
    ∧ (executeSystematic sysQuery sixRows).rows = [[Cell.num 6]] := by
  refine ⟨by decide, rfl, rfl, by decide, by decide, by decide, by decide⟩

theorem zipWith_map_self {β γ : Type} (f : β → γ → γ) (g : β → γ) :
    ∀ l : List β, List.zipWith f l (l.map g) = l.map (fun c => f c (g c)) := by
  intro l
  induction l with
  | nil => rfl
  | cons a t ih => simp only [List.map_cons, List.zipWith_cons_cons, ih]

/-- The materialization loop never reads the scaling factor when no sampler
is active. -/
theorem materializeRow_false_factor (q : Query) (f f' : ℚ) (b : AggregateResult) :
    materializeRow q false f b = materializeRow q false f' b := by
  unfold materializeRow
  simp

/-- Materializing with an active sampler is exactly the unsampled
materialization with COUNT/SUM cells multiplied by the factor. -/
theorem materializeRow_scale (q : Query) (factor : ℚ) (b : AggregateResult) :
    materializeRow q true factor b
      = specScaleRow factor q.columns (materializeRow q false 1 b) := by
  unfold materializeRow specScaleRow
  rw [zipWith_map_self]
  have hfun : ∀ c : Column,
      (if c.aggregation = .NONE then
        Cell.raw (((q.group_by_columns.zip b.group_by_values).lookup c.name).getD [])
      else Cell.num (if true ∧ (c.aggregation = .COUNT ∨ c.aggregation = .SUM)
        then b.getResultA c.name * factor else b.getResultA c.name))
      = specScaleCell factor c
        (if c.aggregation = .NONE then
          Cell.raw (((q.group_by_columns.zip b.group_by_values).lookup c.name).getD [])
        else Cell.num (if false ∧ (c.aggregation = .COUNT ∨ c.aggregation = .SUM)
          then b.getResultA c.name * 1 else b.getResultA c.name)) := by
    intro c
    cases hagg : c.aggregation <;> simp [specScaleCell, hagg]
  exact List.map_congr_left (fun c _ => hfun c)

/-- C5. With an active sampler, the result rows are exactly the rows of the
corresponding unsampled run with each COUNT or SUM cell multiplied by
`scaling_factor` (`1/rate` when the observed rate is positive, 1 otherwise);
AVG, MIN, MAX and raw cells are untouched. -/
theorem C5_rescaling_exactly_count_sum (q : Query) (processed : List Row) (rate : ℚ) :
    (executeCore q true processed rate).rows
      = (executeCore q false processed 1).rows.map
          (specScaleRow (if 0 < rate then 1 / rate else 1) q.columns) := by
  unfold executeCore
  simp only [List.map_map]
  refine List.map_congr_left (fun p _ => ?_)
  show materializeRow q true (if 0 < rate then 1 / rate else 1) p.2
      = specScaleRow (if 0 < rate then 1 / rate else 1) q.columns
          (materializeRow q false (if (0 : ℚ) < 1 then 1 / 1 else 1) p.2)
  rw [materializeRow_false_factor q _ 1, materializeRow_scale]

unseal Rat.mul Rat.add Rat.sub Rat.inv in
/-- C6 (counterexample). The stratified percentage is not bounds-checked:
`SELECT COUNT(x) FROM t SAMPLE STRATIFIED BY c 150%` is accepted by `parse`
with a sampling rate of 3/2, outside `(0, 1]`. -/
theorem C6_counterexample :
    parse (strL "SELECT COUNT(x) FROM t SAMPLE STRATIFIED BY c 150%")
        = Except.ok stratQuery
    ∧ stratQuery.sampling.method = SamplingMethod.STRATIFIED
    ∧ 1 < stratQuery.sampling.rate := by
  refine ⟨by decide, rfl, by decide⟩

/-- C6 (amended). The bounds `parse` does enforce: every accepted query has a
random-sampling rate in `(0,1]` and a positive reservoir size (the stratified
rate is not validated; see the counterexample). -/
theorem C6_parse_time_bounds_amended (s : List Char) (q : Query)
    (h : parse s = Except.ok q) :
    (q.sampling.method = SamplingMethod.RANDOM →
      0 < q.sampling.rate ∧ q.sampling.rate ≤ 1)
    ∧ (q.sampling.method = SamplingMethod.RESERVOIR → 0 < q.sampling.size) := by
  unfold parse at h
  split at h
  · exact Except.noConfusion h
  next q0 hraw =>
    split at h
    · exact Except.noConfusion h
    next u hval =>
      injection h with h'
      subst h'
      unfold Query.validateQ at hval
      split_ifs at hval
      unfold Sampling.validateS at hval
      split_ifs at hval with h1 h2
      constructor
      · intro hm
        have h3 : ¬(q0.sampling.rate ≤ 0 ∨ 1 < q0.sampling.rate) :=
          fun hr => h1 ⟨hm, hr⟩
        push_neg at h3
        exact ⟨h3.1, h3.2⟩
      · intro hm
        have h4 : q0.sampling.size ≠ 0 := fun hz => h2 ⟨hm, hz⟩
        omega

unseal Rat.mul Rat.add Rat.sub Rat.inv in
/-- C6 (amended, witness): the accepted query `SELECT COUNT(x) FROM t SAMPLE
50%` satisfies the enforced bounds. -/
theorem C6_parse_time_bounds_amended_witness :
    parse (strL "SELECT COUNT(x) FROM t SAMPLE 50%") = Except.ok randQuery
    ∧ ((randQuery.sampling.method = SamplingMethod.RANDOM →
          0 < randQuery.sampling.rate ∧ randQuery.sampling.rate ≤ 1)
       ∧ (randQuery.sampling.method = SamplingMethod.RESERVOIR →
          0 < randQuery.sampling.size)) :=
  ⟨by decide, C6_parse_time_bounds_amended
    (strL "SELECT COUNT(x) FROM t SAMPLE 50%") randQuery (by decide)⟩


/-! ### List access helpers shared by the sketch proofs -/

theorem getD_set_eqG {β : Type} (d : β) :
    ∀ (l : List β) (i : ℕ) (w : β), i < l.length → (l.set i w).getD i d = w := by
  intro l
  induction l with
  | nil => intro i w h; simp at h
  | cons a t ih =>
    intro i w h
    cases i with
    | zero => rfl
    | succ n => simpa [List.getD] using ih n w (by simpa using h)

theorem getD_set_neG {β : Type} (d : β) :
    ∀ (l : List β) (i j : ℕ) (w : β), i ≠ j → (l.set i w).getD j d = l.getD j d := by
  intro l
  induction l with
  | nil => intro i j w _; cases i <;> rfl
  | cons a t ih =>
    intro i j w hne
    cases i with
    | zero =>
      cases j with
      | zero => exact absurd rfl hne
      | succ m => rfl
    | succ n =>
      cases j with
      | zero => rfl
      | succ m => simpa [List.getD] using ih n m w (fun he => hne (by rw [he]))

theorem getD_memG {β : Type} (d : β) :
    ∀ (l : List β) (i : ℕ), i < l.length → l.getD i d ∈ l := by
  intro l
  induction l with
  | nil => intro i h; simp at h
  | cons a t ih =>
    intro i h
    cases i with
    | zero => exact List.mem_cons_self a t
    | succ n => exact List.mem_cons_of_mem a (ih n (by simpa using h))

theorem mem_set_cases {β : Type} :
    ∀ (l : List β) (i : ℕ) (w v : β), v ∈ l.set i w → v ∈ l ∨ v = w := by
  intro l
  induction l with
  | nil => intro i w v h; simp at h
  | cons a t ih =>
    intro i w v h
    cases i with
    | zero =>
      rcases List.mem_cons.mp h with h1 | h1
      · exact Or.inr h1
      · exact Or.inl (List.mem_cons_of_mem a h1)
    | succ n =>
      rcases List.mem_cons.mp h with h1 | h1
      · exact Or.inl (by rw [h1]; exact List.mem_cons_self a t)
      · rcases ih n w v h1 with h2 | h2
        · exact Or.inl (List.mem_cons_of_mem a h2)
        · exact Or.inr h2

/-! ### Bloom filter: no false negatives (C10) -/

theorem getD_set_true :
    ∀ (l : List Bool) (i j : ℕ), l.getD j false = true →
      (l.set i true).getD j false = true := by
  intro l
  induction l with
  | nil => intro i j h; simp [List.getD] at h
  | cons a t ih =>
    intro i j h
    cases i with
    | zero =>
      cases j with
      | zero => rfl
      | succ m => exact h
    | succ n =>
      cases j with
      | zero => exact h
      | succ m => exact ih n m h

theorem bloomAdd_num_bits (hf : ℕ → List Char → ℕ) (b : BloomFilter) (item : List Char) :
    (b.add hf item).num_bits = b.num_bits := rfl

theorem bloomAdd_bits_length (hf : ℕ → List Char → ℕ) (b : BloomFilter) (item : List Char) :
    (b.add hf item).bits.length = b.bits.length := by
  show ((List.range 3).foldl
      (fun bs i => bs.set (bloomIdx hf b.num_bits item i) true) b.bits).length = _
  have hr3 : List.range 3 = [0, 1, 2] := by decide
  rw [hr3]
  simp only [List.foldl_cons, List.foldl_nil, List.length_set]

theorem bloomAdd_mono (hf : ℕ → List Char → ℕ) (b : BloomFilter) (item : List Char)
    (j : ℕ) (h : b.bits.getD j false = true) :
    (b.add hf item).bits.getD j false = true := by
  show (((List.range 3).foldl
      (fun bs i => bs.set (bloomIdx hf b.num_bits item i) true) b.bits).getD j false) = true
  have hr3 : List.range 3 = [0, 1, 2] := by decide
  rw [hr3]
  simp only [List.foldl]
  exact getD_set_true _ _ _ (getD_set_true _ _ _ (getD_set_true _ _ _ h))

theorem bloomAddAll_num_bits (hf : ℕ → List Char → ℕ) :
    ∀ (items : List (List Char)) (b : BloomFilter),
      (bloomAddAll hf b items).num_bits = b.num_bits := by
  intro items
  induction items with
  | nil => intro b; rfl
  | cons a t ih => intro b; exact ih (b.add hf a)

theorem bloomAddAll_mono (hf : ℕ → List Char → ℕ) :
    ∀ (items : List (List Char)) (b : BloomFilter) (j : ℕ),
      b.bits.getD j false = true →
      (bloomAddAll hf b items).bits.getD j false = true := by
  intro items
  induction items with
  | nil => intro b j h; exact h
  | cons a t ih => intro b j h; exact ih (b.add hf a) j (bloomAdd_mono hf b a j h)

/-- Adding `x` sets all three probed bits. -/
theorem bloomAdd_self (hf : ℕ → List Char → ℕ) (b : BloomFilter) (x : List Char)
    (hm : 0 < b.num_bits) (hl : b.bits.length = b.num_bits) :
    ∀ i, i < 3 → (b.add hf x).bits.getD (bloomIdx hf b.num_bits x i) false = true := by
  have hidx : ∀ i, bloomIdx hf b.num_bits x i < b.num_bits :=
    fun i => Nat.mod_lt _ hm
  intro i hi
  show (((List.range 3).foldl
      (fun bs i => bs.set (bloomIdx hf b.num_bits x i) true) b.bits).getD
        (bloomIdx hf b.num_bits x i) false) = true
  have hr3 : List.range 3 = [0, 1, 2] := by decide
  rw [hr3]
  simp only [List.foldl]
  interval_cases i
  · exact getD_set_true _ _ _ (getD_set_true _ _ _
      (getD_set_eqG false _ _ _ (by rw [hl]; exact hidx 0)))
  · exact getD_set_true _ _ _
      (getD_set_eqG false _ _ _ (by rw [List.length_set, hl]; exact hidx 1))
  · exact getD_set_eqG false _ _ _
      (by rw [List.length_set, List.length_set, hl]; exact hidx 2)

theorem bloom_contains_of_mem (hf : ℕ → List Char → ℕ) (m : ℕ) (x : List Char)
    (hm : 0 < m) :
    ∀ (items : List (List Char)) (b : BloomFilter),
      b.num_bits = m → b.bits.length = m → x ∈ items →
      BloomFilter.mightContain hf (bloomAddAll hf b items) x = true := by
  intro items
  induction items with
  | nil => intro b _ _ hx; simp at hx
  | cons a t ih =>
    intro b hb hl hx
    rcases List.mem_cons.mp hx with hxa | hxt
    · subst hxa
      show BloomFilter.mightContain hf (bloomAddAll hf (b.add hf x) t) x = true
      have hbits : ∀ i, i < 3 →
          (bloomAddAll hf (b.add hf x) t).bits.getD (bloomIdx hf b.num_bits x i) false
            = true := fun i hi =>
        bloomAddAll_mono hf t (b.add hf x) _
          (bloomAdd_self hf b x (hb ▸ hm) (by rw [hl, hb]) i hi)
      have hnb : (bloomAddAll hf (b.add hf x) t).num_bits = b.num_bits :=
        bloomAddAll_num_bits hf t (b.add hf x)
      unfold BloomFilter.mightContain
      have hr3 : List.range 3 = [0, 1, 2] := by decide
      rw [hr3]
      simp only [List.all_cons, List.all_nil, Bool.and_true, Bool.and_eq_true]
      rw [hnb]
      exact ⟨hbits 0 (by omega), hbits 1 (by omega), hbits 2 (by omega)⟩
    · exact ih (b.add hf a) (by rw [bloomAdd_num_bits, hb])
        (by rw [bloomAdd_bits_length, hl]) hxt

/-- C10. The Bloom filter reports no false negative: for every hash family,
every positive bit count, and every add stream with no intervening clear,
`mightContain` returns true on every added item. -/
theorem C10_bloom_no_false_negative (hf : ℕ → List Char → ℕ) (m : ℕ)
    (items : List (List Char)) (x : List Char) (hm : 0 < m) (hx : x ∈ items) :
    BloomFilter.mightContain hf (bloomAddAll hf (BloomFilter.init m) items) x
      = true := by
  exact bloom_contains_of_mem hf m x hm items (BloomFilter.init m) rfl
    (by simp [BloomFilter.init]) hx

/-- C10 witness: a concrete filter over 5 bits with the hash family
`hf i s = |s| + i` contains the one added item. -/
theorem C10_bloom_no_false_negative_witness :
    0 < 5 ∧ strL "ab" ∈ [strL "ab"]
    ∧ BloomFilter.mightContain (fun i s => s.length + i)
        (bloomAddAll (fun i s => s.length + i) (BloomFilter.init 5) [strL "ab"])
        (strL "ab") = true :=
  ⟨by decide, by decide,
    C10_bloom_no_false_negative (fun i s => s.length + i) 5 [strL "ab"] (strL "ab")
      (by decide) (by decide)⟩


/-! ### Count-Min Sketch (C9) -/

theorem foldl_min_le_init {α : Type} (g : α → ℤ) :
    ∀ (l : List α) (m0 : ℤ), l.foldl (fun m p => min m (g p)) m0 ≤ m0 := by
  intro l
  induction l with
  | nil => intro m0; exact le_refl m0
  | cons a t ih =>
    intro m0
    exact le_trans (ih (min m0 (g a))) (min_le_left _ _)

theorem foldl_min_le_elem {α : Type} (g : α → ℤ) :
    ∀ (l : List α) (m0 : ℤ) (p : α), p ∈ l →
      l.foldl (fun m p => min m (g p)) m0 ≤ g p := by
  intro l
  induction l with
  | nil => intro m0 p hp; simp at hp
  | cons a t ih =>
    intro m0 p hp
    rcases List.mem_cons.mp hp with h1 | h1
    · subst h1
      exact le_trans (foldl_min_le_init g t (min m0 (g p))) (min_le_right _ _)
    · exact ih (min m0 (g a)) p h1

theorem foldl_min_attained {α : Type} (g : α → ℤ) :
    ∀ (l : List α) (m0 : ℤ),
      l.foldl (fun m p => min m (g p)) m0 = m0
      ∨ ∃ p ∈ l, l.foldl (fun m p => min m (g p)) m0 = g p := by
  intro l
  induction l with
  | nil => intro m0; exact Or.inl rfl
  | cons a t ih =>
    intro m0
    rcases ih (min m0 (g a)) with h | ⟨p, hp, he⟩
    · rcases min_choice m0 (g a) with hm | hm
      · exact Or.inl (by rw [List.foldl_cons, h, hm])
      · exact Or.inr ⟨a, List.mem_cons_self a t, by rw [List.foldl_cons, h, hm]⟩
    · exact Or.inr ⟨p, List.mem_cons_of_mem a hp, by rw [List.foldl_cons, he]⟩

theorem foldl_min_lb {α : Type} (g : α → ℤ) :
    ∀ (l : List α) (m0 t : ℤ), t ≤ m0 → (∀ p ∈ l, t ≤ g p) →
      t ≤ l.foldl (fun m p => min m (g p)) m0 := by
  intro l
  induction l with
  | nil => intro m0 t h _; exact h
  | cons a tl ih =>
    intro m0 t h hall
    exact ih (min m0 (g a)) t
      (le_min h (hall a (List.mem_cons_self a tl)))
      (fun p hp => hall p (List.mem_cons_of_mem a hp))

theorem cmsTotalAll_cons (op : List Char × ℤ) (ops : List (List Char × ℤ)) :
    cmsTotalAll (op :: ops) = op.2 + cmsTotalAll ops := by
  simp [cmsTotalAll]

theorem cmsTotalFor_cons (x : List Char) (op : List Char × ℤ)
    (ops : List (List Char × ℤ)) :
    cmsTotalFor x (op :: ops)
      = (if op.1 = x then op.2 else 0) + cmsTotalFor x ops := by
  unfold cmsTotalFor
  by_cases h : op.1 = x <;> simp [List.filter_cons, h]

/-- One `add(item, c)` with `c ≥ 0` preserves the Count-Min counter
invariants: row widths, the counter range `[0, total-added]`, and the lower
bound `total-added-for-x` on `x`'s hashed counter in every row. -/
theorem cmsAdd_invariant (x item : List Char) (c : ℤ) (hc : 0 ≤ c)
    (w : ℕ) (hw : 0 < w) (s : CMS) (tx ta : ℤ)
    (hwidth : s.width = w)
    (hlen : ∀ p ∈ s.rowsC, p.2.length = w)
    (hbound : ∀ p ∈ s.rowsC, ∀ v ∈ p.2, 0 ≤ v ∧ v ≤ ta)
    (hcell : ∀ p ∈ s.rowsC, tx ≤ p.2.getD (cmsHash w p.1 x) 0)
    (_htx : 0 ≤ tx) :
    (s.add item c).width = w
    ∧ (∀ p ∈ (s.add item c).rowsC, p.2.length = w)
    ∧ (∀ p ∈ (s.add item c).rowsC, ∀ v ∈ p.2, 0 ≤ v ∧ v ≤ ta + c)
    ∧ (∀ p ∈ (s.add item c).rowsC,
        tx + (if item = x then c else 0) ≤ p.2.getD (cmsHash w p.1 x) 0)
    ∧ (s.add item c).rowsC.length = s.rowsC.length := by
  have hrows : (s.add item c).rowsC
      = s.rowsC.map (fun p => (p.1, bumpAt p.2 (cmsHash s.width p.1 item) c)) := rfl
  refine ⟨hwidth, ?_, ?_, ?_, by rw [hrows, List.length_map]⟩
  · intro p hp
    rw [hrows] at hp
    rcases List.mem_map.mp hp with ⟨q, hq, hfq⟩
    rw [← hfq]
    show (bumpAt q.2 (cmsHash s.width q.1 item) c).length = w
    unfold bumpAt
    rw [List.length_set]
    exact hlen q hq
  · intro p hp v hv
    rw [hrows] at hp
    rcases List.mem_map.mp hp with ⟨q, hq, hfq⟩
    rw [← hfq] at hv
    have hql := hlen q hq
    have hidx : cmsHash s.width q.1 item < q.2.length := by
      rw [hql, hwidth]; exact Nat.mod_lt _ hw
    rcases mem_set_cases q.2 (cmsHash s.width q.1 item)
        (q.2.getD (cmsHash s.width q.1 item) 0 + c) v hv with h1 | h1
    · have := hbound q hq v h1
      exact ⟨this.1, le_trans this.2 (by linarith)⟩
    · have hm := hbound q hq _ (getD_memG 0 q.2 _ hidx)
      constructor
      · rw [h1]; linarith [hm.1]
      · rw [h1]; linarith [hm.2]
  · intro p hp
    rw [hrows] at hp
    rcases List.mem_map.mp hp with ⟨q, hq, hfq⟩
    rw [← hfq]
    have hql := hlen q hq
    have hidxI : cmsHash s.width q.1 item < q.2.length := by
      rw [hql, hwidth]; exact Nat.mod_lt _ hw
    show tx + _ ≤ (bumpAt q.2 (cmsHash s.width q.1 item) c).getD (cmsHash w q.1 x) 0
    unfold bumpAt
    by_cases heq : cmsHash s.width q.1 item = cmsHash w q.1 x
    · rw [← heq, getD_set_eqG 0 q.2 _ _ hidxI]
      have hcq := hcell q hq
      rw [← heq] at hcq
      by_cases hix : item = x
      · rw [if_pos hix]; linarith
      · rw [if_neg hix]; linarith
    · rw [getD_set_neG 0 q.2 _ _ _ heq]
      have hcq := hcell q hq
      by_cases hix : item = x
      · exact absurd (by rw [hix, hwidth]) heq
      · rw [if_neg hix]; linarith

/-- The Count-Min invariants along a whole non-negative add stream. -/
theorem cmsAddAll_invariant (x : List Char) (w : ℕ) (hw : 0 < w) :
    ∀ (ops : List (List Char × ℤ)) (s : CMS) (tx ta : ℤ),
      (∀ op ∈ ops, 0 ≤ op.2) →
      s.width = w →
      (∀ p ∈ s.rowsC, p.2.length = w) →
      (∀ p ∈ s.rowsC, ∀ v ∈ p.2, 0 ≤ v ∧ v ≤ ta) →
      (∀ p ∈ s.rowsC, tx ≤ p.2.getD (cmsHash w p.1 x) 0) →
      0 ≤ tx →
      (cmsAddAll s ops).width = w
      ∧ (∀ p ∈ (cmsAddAll s ops).rowsC, p.2.length = w)
      ∧ (∀ p ∈ (cmsAddAll s ops).rowsC, ∀ v ∈ p.2,
          0 ≤ v ∧ v ≤ ta + cmsTotalAll ops)
      ∧ (∀ p ∈ (cmsAddAll s ops).rowsC,
          tx + cmsTotalFor x ops ≤ p.2.getD (cmsHash w p.1 x) 0)
      ∧ (cmsAddAll s ops).rowsC.length = s.rowsC.length := by
  intro ops
  induction ops with
  | nil =>
    intro s tx ta _ hwidth hlen hbound hcell _
    refine ⟨hwidth, hlen, ?_, ?_, rfl⟩
    · intro p hp v hv
      have := hbound p hp v hv
      simp only [cmsTotalAll, List.map_nil, List.sum_nil, add_zero]
      exact this
    · intro p hp
      simp only [cmsTotalFor, List.filter_nil, List.map_nil, List.sum_nil, add_zero]
      exact hcell p hp
  | cons op t ih =>
    intro s tx ta hc hwidth hlen hbound hcell htx
    have hc0 : 0 ≤ op.2 := hc op (List.mem_cons_self op t)
    have hstep := cmsAdd_invariant x op.1 op.2 hc0 w hw s tx ta hwidth hlen hbound
      hcell htx
    have htx' : 0 ≤ tx + (if op.1 = x then op.2 else 0) := by
      by_cases h : op.1 = x <;> simp [h] <;> linarith
    have ht := ih (s.add op.1 op.2) (tx + (if op.1 = x then op.2 else 0)) (ta + op.2)
      (fun o ho => hc o (List.mem_cons_of_mem op ho))
      hstep.1 hstep.2.1 hstep.2.2.1 hstep.2.2.2.1 htx'
    have hall : cmsAddAll s (op :: t) = cmsAddAll (s.add op.1 op.2) t := rfl
    rw [hall, cmsTotalAll_cons, cmsTotalFor_cons]
    refine ⟨ht.1, ht.2.1, ?_, ?_, by rw [ht.2.2.2.2, hstep.2.2.2.2]⟩
    · intro p hp v hv
      have := ht.2.2.1 p hp v hv
      exact ⟨this.1, by linarith [this.2]⟩
    · intro p hp
      have := ht.2.2.2.1 p hp
      linarith

/-- C9. For every Count-Min sketch built by a stream of `add(item, c)` calls
with all `c ≥ 0` (and no counter overflow), `estimate x` is exactly the
minimum over the depth rows of the counter at `x`'s hashed column, and it
never underestimates the total count added for `x`. -/
theorem C9_cms_estimate_min_and_overcount (w : ℕ) (seeds : List ℕ)
    (ops : List (List Char × ℤ)) (x : List Char) (s : CMS)
    (hw : 0 < w) (hd : seeds ≠ [])
    (hc : ∀ op ∈ ops, 0 ≤ op.2) (hb : cmsTotalAll ops ≤ 2 ^ 63 - 1)
    (hs : s = cmsAddAll (CMS.init w seeds) ops) :
    (∀ p ∈ s.rowsC, s.estimate x ≤ p.2.getD (cmsHash s.width p.1 x) 0)
    ∧ (∃ p ∈ s.rowsC, s.estimate x = p.2.getD (cmsHash s.width p.1 x) 0)
    ∧ cmsTotalFor x ops ≤ s.estimate x := by
  have hinit_len : ∀ p ∈ (CMS.init w seeds).rowsC, p.2.length = w := by
    intro p hp
    rcases List.mem_map.mp hp with ⟨sd, _, hfq⟩
    rw [← hfq]
    exact List.length_replicate w 0
  have hinit_bound : ∀ p ∈ (CMS.init w seeds).rowsC, ∀ v ∈ p.2, 0 ≤ v ∧ v ≤ 0 := by
    intro p hp v hv
    rcases List.mem_map.mp hp with ⟨sd, _, hfq⟩
    rw [← hfq] at hv
    have := List.eq_of_mem_replicate hv
    simp [this]
  have hinit_cell : ∀ p ∈ (CMS.init w seeds).rowsC,
      (0 : ℤ) ≤ p.2.getD (cmsHash w p.1 x) 0 := by
    intro p hp
    rcases List.mem_map.mp hp with ⟨sd, _, hfq⟩
    rw [← hfq]
    show (0 : ℤ) ≤ (List.replicate w (0 : ℤ)).getD (cmsHash w sd x) 0
    have hmem : (List.replicate w (0 : ℤ)).getD (cmsHash w sd x) 0
        ∈ List.replicate w (0 : ℤ) :=
      getD_memG 0 _ _ (by rw [List.length_replicate]; exact Nat.mod_lt _ hw)
    rw [List.eq_of_mem_replicate hmem]
  have hinv := cmsAddAll_invariant x w hw ops (CMS.init w seeds) 0 0 hc rfl
    hinit_len hinit_bound hinit_cell (le_refl 0)
  rw [← hs] at hinv
  obtain ⟨hswidth, hslen, hsbound, hscell, hslength⟩ := hinv
  simp only [zero_add] at hsbound hscell
  have hne : s.rowsC ≠ [] := by
    intro hnil
    rw [hnil] at hslength
    simp only [List.length_nil] at hslength
    have : (CMS.init w seeds).rowsC.length = seeds.length := by
      show (seeds.map _).length = seeds.length
      exact List.length_map _ _
    rw [this] at hslength
    exact hd (List.eq_nil_of_length_eq_zero (by omega))
  have hest : s.estimate x
      = s.rowsC.foldl (fun m p => min m (p.2.getD (cmsHash w p.1 x) 0)) (2 ^ 63 - 1) := by
    unfold CMS.estimate
    rw [hswidth]
  have hcell_ub : ∀ p ∈ s.rowsC, p.2.getD (cmsHash w p.1 x) 0 ≤ cmsTotalAll ops := by
    intro p hp
    have hidx : cmsHash w p.1 x < p.2.length := by
      rw [hslen p hp]; exact Nat.mod_lt _ hw
    exact (hsbound p hp _ (getD_memG 0 p.2 _ hidx)).2
  have htfor_le : cmsTotalFor x ops ≤ cmsTotalAll ops := by
    obtain ⟨p0, hp0⟩ := List.exists_mem_of_ne_nil s.rowsC hne
    exact le_trans (hscell p0 hp0) (hcell_ub p0 hp0)
  refine ⟨?_, ?_, ?_⟩
  · intro p hp
    rw [hest, hswidth]
    exact foldl_min_le_elem _ s.rowsC _ p hp
  · rcases foldl_min_attained
        (fun p : ℕ × List ℤ => p.2.getD (cmsHash w p.1 x) 0) s.rowsC (2 ^ 63 - 1)
      with h | ⟨p, hp, he⟩
    · obtain ⟨p0, hp0⟩ := List.exists_mem_of_ne_nil s.rowsC hne
      refine ⟨p0, hp0, ?_⟩
      have h1 : s.estimate x ≤ p0.2.getD (cmsHash w p0.1 x) 0 := by
        rw [hest]; exact foldl_min_le_elem _ s.rowsC _ p0 hp0
      have h2 : p0.2.getD (cmsHash w p0.1 x) 0 ≤ 2 ^ 63 - 1 :=
        le_trans (hcell_ub p0 hp0) hb
      rw [hest, h] at h1
      rw [hswidth, hest, h]
      omega
    · exact ⟨p, hp, by rw [hswidth, hest, he]⟩
  · rw [hest]
    exact foldl_min_lb _ s.rowsC _ _ (le_trans htfor_le hb) (fun p hp => hscell p hp)

/-- C9 witness: a concrete 2-row, width-4 sketch over the stream
`add("a",2), add("b",1), add("a",3)`, estimated at `"a"`. -/
theorem C9_cms_estimate_min_and_overcount_witness :
    0 < 4 ∧ ([1, 2] : List ℕ) ≠ []
    ∧ (∀ op ∈ [(strL "a", (2 : ℤ)), (strL "b", 1), (strL "a", 3)], 0 ≤ op.2)
    ∧ cmsTotalAll [(strL "a", (2 : ℤ)), (strL "b", 1), (strL "a", 3)] ≤ 2 ^ 63 - 1
    ∧ ((∀ p ∈ (cmsAddAll (CMS.init 4 [1, 2])
            [(strL "a", (2 : ℤ)), (strL "b", 1), (strL "a", 3)]).rowsC,
          (cmsAddAll (CMS.init 4 [1, 2])
            [(strL "a", (2 : ℤ)), (strL "b", 1), (strL "a", 3)]).estimate (strL "a")
            ≤ p.2.getD (cmsHash (cmsAddAll (CMS.init 4 [1, 2])
                [(strL "a", (2 : ℤ)), (strL "b", 1), (strL "a", 3)]).width p.1 (strL "a")) 0)
        ∧ (∃ p ∈ (cmsAddAll (CMS.init 4 [1, 2])
            [(strL "a", (2 : ℤ)), (strL "b", 1), (strL "a", 3)]).rowsC,
          (cmsAddAll (CMS.init 4 [1, 2])
            [(strL "a", (2 : ℤ)), (strL "b", 1), (strL "a", 3)]).estimate (strL "a")
            = p.2.getD (cmsHash (cmsAddAll (CMS.init 4 [1, 2])
                [(strL "a", (2 : ℤ)), (strL "b", 1), (strL "a", 3)]).width p.1 (strL "a")) 0)
        ∧ cmsTotalFor (strL "a") [(strL "a", (2 : ℤ)), (strL "b", 1), (strL "a", 3)]
            ≤ (cmsAddAll (CMS.init 4 [1, 2])
                [(strL "a", (2 : ℤ)), (strL "b", 1), (strL "a", 3)]).estimate (strL "a")) :=
  ⟨by decide, by decide, by decide, by decide,
    C9_cms_estimate_min_and_overcount 4 [1, 2]
      [(strL "a", (2 : ℤ)), (strL "b", 1), (strL "a", 3)] (strL "a")
      (cmsAddAll (CMS.init 4 [1, 2]) [(strL "a", (2 : ℤ)), (strL "b", 1), (strL "a", 3)])
      (by decide) (by decide) (by decide) (by decide) rfl⟩


/-! ### Row dispatch: non-numeric cells are skipped (C7) -/

theorem lookup_cons_eqL {β : Type} (k : List Char) (t : List (List Char × β))
    (p : List Char × β) (h : p.1 = k) : List.lookup k (p :: t) = some p.2 := by
  obtain ⟨a, b⟩ := p
  subst h
  simp [List.lookup]

theorem lookup_cons_neL {β : Type} (k : List Char) (t : List (List Char × β))
    (p : List Char × β) (h : p.1 ≠ k) : List.lookup k (p :: t) = List.lookup k t := by
  obtain ⟨a, b⟩ := p
  simp only [List.lookup]
  rw [show (k == a) = false from beq_eq_false_iff_ne.mpr (fun hc => h (by rw [hc]))]

theorem lookup_mapSet_self {β : Type} :
    ∀ (m : List (List Char × β)) (k : List Char) (v : β),
      List.lookup k (mapSet m k v) = some v := by
  intro m
  induction m with
  | nil => intro k v; exact lookup_cons_eqL k [] (k, v) rfl
  | cons p t ih =>
    intro k v
    unfold mapSet
    by_cases h : p.1 = k
    · rw [if_pos h]
      exact lookup_cons_eqL k t (k, v) rfl
    · rw [if_neg h]
      rw [lookup_cons_neL k _ p h]
      exact ih k v

theorem lookup_arAddValue_eq (x : ℚ) :
    ∀ (m : List (List Char × AggState)) (k : List Char),
      List.lookup k (arAddValue m k x) = (List.lookup k m).map (fun s => aggAdd s x) := by
  intro m
  induction m with
  | nil => intro k; rfl
  | cons p t ih =>
    intro k
    unfold arAddValue
    by_cases h : p.1 = k
    · rw [if_pos h]
      rw [lookup_cons_eqL k t (p.1, aggAdd p.2 x) h, lookup_cons_eqL k t p h]
      rfl
    · rw [if_neg h]
      rw [lookup_cons_neL k _ p h, lookup_cons_neL k t p h]
      exact ih k

theorem lookup_arAddValue_ne (x : ℚ) :
    ∀ (m : List (List Char × AggState)) (k k' : List Char), k' ≠ k →
      List.lookup k (arAddValue m k' x) = List.lookup k m := by
  intro m
  induction m with
  | nil => intro k k' _; rfl
  | cons p t ih =>
    intro k k' hne
    unfold arAddValue
    by_cases h : p.1 = k'
    · rw [if_pos h]
      have hpk : p.1 ≠ k := by rw [h]; exact hne
      rw [lookup_cons_neL k t (p.1, aggAdd p.2 x) hpk, lookup_cons_neL k t p hpk]
    · rw [if_neg h]
      by_cases h2 : p.1 = k
      · rw [lookup_cons_eqL k _ p h2, lookup_cons_eqL k t p h2]
      · rw [lookup_cons_neL k _ p h2, lookup_cons_neL k t p h2]
        exact ih k k' hne

theorem lookup_mapUpdate {β : Type} (f : β → β) :
    ∀ (g : List (List Char × β)) (k : List Char),
      List.lookup k (mapUpdate g k f) = (List.lookup k g).map f := by
  intro g
  induction g with
  | nil => intro k; rfl
  | cons p t ih =>
    intro k
    show List.lookup k ((if p.1 = k then (p.1, f p.2) else p) :: mapUpdate t k f)
      = (List.lookup k (p :: t)).map f
    by_cases h : p.1 = k
    · rw [if_pos h]
      rw [lookup_cons_eqL k _ (p.1, f p.2) h, lookup_cons_eqL k t p h]
      rfl
    · rw [if_neg h]
      rw [lookup_cons_neL k _ p h, lookup_cons_neL k t p h]
      exact ih k

/-- A column that neither registers nor updates key `k` leaves the
aggregator stored under `k` unchanged. -/
theorem applyCol_preserve (r : Row) (k : List Char) (d : Column)
    (b : AggregateResult) (hd : sameAggKey k d = false) :
    List.lookup k (applyCol r b d).aggregators = List.lookup k b.aggregators := by
  unfold applyCol
  by_cases h1 : d.aggregation = AggregationType.NONE
  · rw [if_pos h1]
  · rw [if_neg h1]
    have hne : d.name ≠ k := by
      unfold sameAggKey at hd
      simp only [Bool.and_eq_false_iff, decide_eq_false_iff_not, not_not] at hd
      rcases hd with h | h
      · exact absurd h h1
      · exact h
    by_cases h2 : d.aggregation = AggregationType.COUNT
    · rw [if_pos h2]
      exact lookup_arAddValue_ne 1 b.aggregators k d.name hne
    · rw [if_neg h2]
      cases hrf : rowFind r d.name with
      | none => rfl
      | some cell =>
        show List.lookup k (match parseNum cell with
            | none => b
            | some v => b.addValue d.name v).aggregators
          = List.lookup k b.aggregators
        cases hpn : parseNum cell with
        | none => rfl
        | some v =>
          show List.lookup k (arAddValue b.aggregators d.name v) = _
          exact lookup_arAddValue_ne v b.aggregators k d.name hne

theorem fold_applyCol_preserve (r : Row) (k : List Char) :
    ∀ (cols : List Column) (b : AggregateResult),
      cols.filter (sameAggKey k) = [] →
      List.lookup k (cols.foldl (applyCol r) b).aggregators
        = List.lookup k b.aggregators := by
  intro cols
  induction cols with
  | nil => intro b _; rfl
  | cons d t ih =>
    intro b hf
    rw [List.filter_cons] at hf
    by_cases hd : sameAggKey k d
    · rw [if_pos (by simpa using hd)] at hf
      exact absurd hf (List.cons_ne_nil d _)
    · rw [if_neg (by simpa using hd)] at hf
      show List.lookup k ((t.foldl (applyCol r) (applyCol r b d)).aggregators) = _
      rw [ih (applyCol r b d) hf,
        applyCol_preserve r k d b (by simpa using hd)]

/-- The non-COUNT aggregated column `c` updates the aggregator under its key
with the parsed cell value, and receives no update when the cell is missing,
empty or non-numeric. -/
theorem applyCol_self (r : Row) (c : Column) (b : AggregateResult)
    (h0 : c.aggregation ≠ AggregationType.NONE)
    (h1 : c.aggregation ≠ AggregationType.COUNT) :
    List.lookup c.name (applyCol r b c).aggregators
      = match (rowFind r c.name).bind parseNum with
        | none => List.lookup c.name b.aggregators
        | some v => (List.lookup c.name b.aggregators).map (fun s => aggAdd s v) := by
  unfold applyCol
  rw [if_neg h0, if_neg h1]
  cases hrf : rowFind r c.name with
  | none => simp [hrf]
  | some cell =>
    cases hpn : parseNum cell with
    | none => simp [hrf, hpn]
    | some v =>
      simp only [hrf, hpn, Option.some_bind]
      exact lookup_arAddValue_eq v b.aggregators c.name

theorem fold_applyCol_lookup (r : Row) (c : Column)
    (h1 : c.aggregation ≠ AggregationType.COUNT) :
    ∀ (cols : List Column) (b : AggregateResult),
      cols.filter (sameAggKey c.name) = [c] →
      List.lookup c.name ((cols.foldl (applyCol r) b).aggregators)
        = match (rowFind r c.name).bind parseNum with
          | none => List.lookup c.name b.aggregators
          | some v => (List.lookup c.name b.aggregators).map (fun s => aggAdd s v) := by
  intro cols
  induction cols with
  | nil => intro b hf; simp at hf
  | cons d t ih =>
    intro b hf
    rw [List.filter_cons] at hf
    by_cases hd : sameAggKey c.name d
    · rw [if_pos (by simpa using hd)] at hf
      injection hf with hdc hft
      subst hdc
      have h0 : d.aggregation ≠ AggregationType.NONE := by
        unfold sameAggKey at hd
        simp only [Bool.and_eq_true, decide_eq_true_eq] at hd
        exact hd.1
      show List.lookup d.name ((t.foldl (applyCol r) (applyCol r b d)).aggregators) = _
      rw [fold_applyCol_preserve r d.name t (applyCol r b d) hft]
      exact applyCol_self r d b h0 h1
    · rw [if_neg (by simpa using hd)] at hf
      show List.lookup c.name ((t.foldl (applyCol r) (applyCol r b d)).aggregators) = _
      rw [ih (applyCol r b d) hf,
        applyCol_preserve r c.name d b (by simpa using hd)]

/-- The get-or-create step always leaves a bundle under the row's group key. -/
theorem ensureGroup_lookup_isSome (q : Query) (r : Row) (g : Groups) :
    (List.lookup (groupKey q r) (ensureGroup q r g)).isSome := by
  unfold ensureGroup
  by_cases h : (List.lookup (groupKey q r) g).isSome
  · rw [if_pos h]; exact h
  · rw [if_neg h]
    rw [lookup_mapSet_self]
    rfl

/-- C7. For every processed row and every aggregated non-COUNT column whose
source name collides with no other aggregated column: when the row's cell
for that column is missing, empty or non-numeric (`stod` model returns
`none`), the column's aggregator after `processRow` is exactly the state it
had after the get-or-create step — no update; when the cell parses to `v`,
it is exactly that state updated with `addValue(v)`. -/
theorem C7_non_numeric_cells_skipped (q : Query) (r : Row) (g : Groups)
    (c : Column) (hcnt : c.aggregation ≠ AggregationType.COUNT)
    (huniq : q.columns.filter (sameAggKey c.name) = [c]) :
    aggStateAt (processRow q g r) (groupKey q r) c.name
      = match (rowFind r c.name).bind parseNum with
        | none => aggStateAt (ensureGroup q r g) (groupKey q r) c.name
        | some v => (aggStateAt (ensureGroup q r g) (groupKey q r) c.name).map
            (fun s => aggAdd s v) := by
  obtain ⟨b0, hb0⟩ := Option.isSome_iff_exists.mp (ensureGroup_lookup_isSome q r g)
  unfold processRow aggStateAt
  rw [lookup_mapUpdate, hb0]
  simp only [Option.map_some, Option.some_bind]
  show List.lookup c.name ((q.columns.foldl (applyCol r) b0).aggregators) = _
  rw [fold_applyCol_lookup r c hcnt q.columns b0 huniq]


unseal Rat.mul Rat.add Rat.sub Rat.inv in
/-- C7 witness: `SELECT SUM(value) FROM data` processing the row
`value = "abc"` (non-numeric) leaves the SUM aggregator exactly as
registered. -/
theorem C7_non_numeric_cells_skipped_witness :
    (mkColumn (strL "value") (strL "SUM(VALUE)") AggregationType.SUM).aggregation
        ≠ AggregationType.COUNT
    ∧ (mkAggQuery AggregationType.SUM (strL "value")).columns.filter
        (sameAggKey (mkColumn (strL "value") (strL "SUM(VALUE)")
          AggregationType.SUM).name)
        = [mkColumn (strL "value") (strL "SUM(VALUE)") AggregationType.SUM]
    ∧ aggStateAt
        (processRow (mkAggQuery AggregationType.SUM (strL "value"))
          [] [(strL "value", strL "abc")])
        (groupKey (mkAggQuery AggregationType.SUM (strL "value"))
          [(strL "value", strL "abc")])
        (mkColumn (strL "value") (strL "SUM(VALUE)") AggregationType.SUM).name
      = match (rowFind [(strL "value", strL "abc")]
            (mkColumn (strL "value") (strL "SUM(VALUE)")
              AggregationType.SUM).name).bind parseNum with
        | none => aggStateAt
            (ensureGroup (mkAggQuery AggregationType.SUM (strL "value"))
              [(strL "value", strL "abc")] [])
            (groupKey (mkAggQuery AggregationType.SUM (strL "value"))
              [(strL "value", strL "abc")])
            (mkColumn (strL "value") (strL "SUM(VALUE)") AggregationType.SUM).name
        | some v => (aggStateAt
            (ensureGroup (mkAggQuery AggregationType.SUM (strL "value"))
              [(strL "value", strL "abc")] [])
            (groupKey (mkAggQuery AggregationType.SUM (strL "value"))
              [(strL "value", strL "abc")])
            (mkColumn (strL "value") (strL "SUM(VALUE)")
              AggregationType.SUM).name).map (fun s => aggAdd s v) :=
  ⟨by decide, by decide,
    C7_non_numeric_cells_skipped (mkAggQuery AggregationType.SUM (strL "value"))
      [(strL "value", strL "abc")] []
      (mkColumn (strL "value") (strL "SUM(VALUE)") AggregationType.SUM)
      (by decide) (by decide)⟩


/-! ### Unsampled aggregate exactness (C4) -/

theorem applyCol_single (t : AggregationType) (x al : List Char) (r : Row)
    (s : AggState) (gv : List (List Char)) (ht : t ≠ AggregationType.NONE) :
    applyCol r ⟨[(x, s)], gv⟩ (mkColumn x al t)
      = ⟨[(x, singleStep t x s r)], gv⟩ := by
  unfold applyCol singleStep
  by_cases hc : t = AggregationType.COUNT
  · subst hc
    rw [if_neg (by simp [mkColumn]), if_pos (by simp [mkColumn]), if_pos rfl]
    show AggregateResult.addValue ⟨[(x, s)], gv⟩ x 1 = _
    unfold AggregateResult.addValue arAddValue
    simp
  · rw [if_neg (by simp [mkColumn, ht]), if_neg (by simp [mkColumn, hc]),
      if_neg hc]
    show (match rowFind r x with
      | none => (⟨[(x, s)], gv⟩ : AggregateResult)
      | some cell => match parseNum cell with
        | none => (⟨[(x, s)], gv⟩ : AggregateResult)
        | some v => AggregateResult.addValue ⟨[(x, s)], gv⟩ x v) = _
    cases hrf : rowFind r x with
    | none => rfl
    | some cell =>
      show (match parseNum cell with
        | none => (⟨[(x, s)], gv⟩ : AggregateResult)
        | some v => AggregateResult.addValue ⟨[(x, s)], gv⟩ x v)
        = ⟨[(x, match parseNum cell with
            | none => s
            | some v => aggAdd s v)], gv⟩
      cases hpn : parseNum cell with
      | none => rfl
      | some v =>
        show AggregateResult.addValue ⟨[(x, s)], gv⟩ x v = ⟨[(x, aggAdd s v)], gv⟩
        unfold AggregateResult.addValue arAddValue
        simp

theorem groupKey_single (t : AggregationType) (x : List Char) (r : Row) :
    groupKey (mkAggQuery t x) r = strL "default" := rfl

theorem mapUpdate_singleton {β : Type} (k : List Char) (v : β) (f : β → β) :
    mapUpdate [(k, v)] k f = [(k, f v)] := by
  unfold mapUpdate
  simp

theorem processRow_single_empty (t : AggregationType) (x : List Char)
    (ht : t ≠ AggregationType.NONE) (s0 : AggState) (hs0 : aggInit t = some s0)
    (r : Row) :
    processRow (mkAggQuery t x) [] r
      = [(strL "default", ⟨[(x, singleStep t x s0 r)], []⟩)] := by
  have hfresh : freshBundle (mkAggQuery t x) r = ⟨[(x, s0)], []⟩ := by
    unfold freshBundle groupValues
    simp only [mkAggQuery, List.foldl_cons, List.foldl_nil, List.map_nil]
    rw [if_pos (by simp [mkColumn, ht])]
    show (⟨((⟨[], []⟩ : AggregateResult).addAggregator x t).aggregators,
        ([] : List (List Char))⟩ : AggregateResult) = _
    unfold AggregateResult.addAggregator
    rw [hs0]
    rfl
  unfold processRow ensureGroup
  rw [groupKey_single, if_neg (by simp [List.lookup]), hfresh]
  simp only [mapSet]
  rw [mapUpdate_singleton]
  show [(strL "default",
      (mkAggQuery t x).columns.foldl (applyCol r) ⟨[(x, s0)], []⟩)] = _
  simp only [mkAggQuery, List.foldl_cons, List.foldl_nil]
  rw [applyCol_single t x _ r s0 [] ht]

theorem processRow_single_existing (t : AggregationType) (x : List Char)
    (ht : t ≠ AggregationType.NONE) (r : Row) (s : AggState) :
    processRow (mkAggQuery t x) [(strL "default", ⟨[(x, s)], []⟩)] r
      = [(strL "default", ⟨[(x, singleStep t x s r)], []⟩)] := by
  unfold processRow ensureGroup
  rw [groupKey_single]
  rw [if_pos (by
    rw [lookup_cons_eqL (strL "default") []
      ((strL "default"), (⟨[(x, s)], []⟩ : AggregateResult)) rfl]
    rfl)]
  rw [mapUpdate_singleton]
  show [(strL "default",
      (mkAggQuery t x).columns.foldl (applyCol r) ⟨[(x, s)], []⟩)] = _
  simp only [mkAggQuery, List.foldl_cons, List.foldl_nil]
  rw [applyCol_single t x _ r s [] ht]

theorem dispatch_single (t : AggregationType) (x : List Char)
    (ht : t ≠ AggregationType.NONE) :
    ∀ (D : List Row) (s : AggState),
      dispatchAll (mkAggQuery t x) D [(strL "default", ⟨[(x, s)], []⟩)]
        = [(strL "default", ⟨[(x, D.foldl (singleStep t x) s)], []⟩)] := by
  intro D
  induction D with
  | nil => intro s; rfl
  | cons r D' ih =>
    intro s
    show dispatchAll (mkAggQuery t x) D'
        (processRow (mkAggQuery t x) [(strL "default", ⟨[(x, s)], []⟩)] r) = _
    rw [processRow_single_existing t x ht r s, ih (singleStep t x s r),
      List.foldl_cons]

theorem materializeRow_single (t : AggregationType) (x : List Char)
    (ht : t ≠ AggregationType.NONE) (f : ℚ) (S : AggState) :
    materializeRow (mkAggQuery t x) false f ⟨[(x, S)], []⟩
      = [Cell.num (aggResult S)] := by
  unfold materializeRow
  simp only [mkAggQuery, List.map_cons, List.map_nil]
  rw [if_neg (by simp [mkColumn, ht])]
  simp only [Bool.false_eq_true, false_and, if_false]
  unfold AggregateResult.getResultA
  show [Cell.num (match List.lookup x [(x, S)] with
    | some s => aggResult s
    | none => 0)] = [Cell.num (aggResult S)]
  rw [lookup_cons_eqL x [] (x, S) rfl]

/-- The whole pipeline for a one-aggregate query without GROUP BY or
sampling: one result row whose single cell is the fold of the per-row
updates from the fresh aggregator. -/
theorem single_agg_rows (t : AggregationType) (x : List Char)
    (ht : t ≠ AggregationType.NONE) (s0 : AggState) (hs0 : aggInit t = some s0)
    (D : List Row) (hD : D ≠ []) :
    (executeNoSampling (mkAggQuery t x) D).rows
      = [[Cell.num (aggResult (D.foldl (singleStep t x) s0))]] := by
  cases D with
  | nil => exact absurd rfl hD
  | cons r D' =>
    show (executeCore (mkAggQuery t x) false (r :: D') 1).rows = _
    unfold executeCore
    show (dispatchAll (mkAggQuery t x) (r :: D') []).map _ = _
    have hdisp : dispatchAll (mkAggQuery t x) (r :: D') []
        = [(strL "default",
            ⟨[(x, (r :: D').foldl (singleStep t x) s0)], []⟩)] := by
      show dispatchAll (mkAggQuery t x) D' (processRow (mkAggQuery t x) [] r) = _
      rw [processRow_single_empty t x ht s0 hs0 r,
        dispatch_single t x ht D' (singleStep t x s0 r), List.foldl_cons]
    rw [hdisp]
    simp only [List.map_cons, List.map_nil]
    rw [materializeRow_single t x ht]

/-- For a non-COUNT aggregate the per-row fold collapses to a fold of
`addValue` over exactly the numeric cells. -/
theorem foldl_singleStep_numeric (t : AggregationType) (x : List Char)
    (hcnt : t ≠ AggregationType.COUNT) :
    ∀ (D : List Row) (s : AggState),
      D.foldl (singleStep t x) s = (numericList D x).foldl aggAdd s := by
  intro D
  induction D with
  | nil => intro s; rfl
  | cons r D' ih =>
    intro s
    rw [List.foldl_cons]
    cases hv : (rowFind r x).bind parseNum with
    | none =>
      have hone : singleStep t x s r = s := by
        unfold singleStep
        rw [if_neg hcnt, hv]
      rw [hone]
      simp only [numericList, List.filterMap_cons, hv]
      exact ih s
    | some v =>
      have hone : singleStep t x s r = aggAdd s v := by
        unfold singleStep
        rw [if_neg hcnt, hv]
      rw [hone]
      simp only [numericList, List.filterMap_cons, hv, List.foldl_cons]
      exact ih (aggAdd s v)

theorem foldl_singleStep_count (x : List Char) :
    ∀ (D : List Row) (n : ℕ),
      D.foldl (singleStep AggregationType.COUNT x) (AggState.count n)
        = AggState.count (n + D.length) := by
  intro D
  induction D with
  | nil => intro n; simp
  | cons r D' ih =>
    intro n
    rw [List.foldl_cons]
    have hone : singleStep AggregationType.COUNT x (AggState.count n) r
        = AggState.count (n + 1) := by
      unfold singleStep
      rw [if_pos rfl]
      rfl
    rw [hone, ih (n + 1)]
    simp only [List.length_cons]
    congr 1
    omega

theorem foldl_aggAdd_sum :
    ∀ (l : List ℚ) (a : ℚ), l.foldl aggAdd (AggState.sum a) = AggState.sum (a + l.sum) := by
  intro l
  induction l with
  | nil => intro a; simp
  | cons v t ih =>
    intro a
    rw [List.foldl_cons]
    show t.foldl aggAdd (AggState.sum (a + v)) = _
    rw [ih (a + v), List.sum_cons]
    congr 1
    ring

theorem foldl_aggAdd_avg :
    ∀ (l : List ℚ) (a : ℚ) (n : ℕ),
      l.foldl aggAdd (AggState.avg a n) = AggState.avg (a + l.sum) (n + l.length) := by
  intro l
  induction l with
  | nil => intro a n; simp
  | cons v t ih =>
    intro a n
    rw [List.foldl_cons]
    show t.foldl aggAdd (AggState.avg (a + v) (n + 1)) = _
    rw [ih (a + v) (n + 1), List.sum_cons, List.length_cons]
    congr 1
    · ring
    · omega

theorem foldl_aggAdd_min_true :
    ∀ (l : List ℚ) (m : ℚ),
      l.foldl aggAdd (AggState.amin m true) = AggState.amin (l.foldl min m) true := by
  intro l
  induction l with
  | nil => intro m; rfl
  | cons v t ih =>
    intro m
    rw [List.foldl_cons, List.foldl_cons]
    show t.foldl aggAdd (AggState.amin (min m v) true) = _
    exact ih (min m v)

theorem foldl_aggAdd_max_true :
    ∀ (l : List ℚ) (m : ℚ),
      l.foldl aggAdd (AggState.amax m true) = AggState.amax (l.foldl max m) true := by
  intro l
  induction l with
  | nil => intro m; rfl
  | cons v t ih =>
    intro m
    rw [List.foldl_cons, List.foldl_cons]
    show t.foldl aggAdd (AggState.amax (max m v) true) = _
    exact ih (max m v)

theorem foldlMin_mem : ∀ (l : List ℚ) (a : ℚ), l.foldl min a ∈ a :: l := by
  intro l
  induction l with
  | nil => intro a; exact List.mem_cons_self a []
  | cons v t ih =>
    intro a
    rw [List.foldl_cons]
    rcases List.mem_cons.mp (ih (min a v)) with h1 | h1
    · rcases min_choice a v with hm | hm
      · rw [h1, hm]; exact List.mem_cons_self _ _
      · rw [h1, hm]
        exact List.mem_cons_of_mem _ (List.mem_cons_self _ _)
    · exact List.mem_cons_of_mem _ (List.mem_cons_of_mem _ h1)

theorem foldlMin_le : ∀ (l : List ℚ) (a y : ℚ), y ∈ a :: l → l.foldl min a ≤ y := by
  intro l
  induction l with
  | nil =>
    intro a y hy
    rcases List.mem_cons.mp hy with h | h
    · rw [h]; exact le_refl a
    · simp at h
  | cons v t ih =>
    intro a y hy
    rw [List.foldl_cons]
    rcases List.mem_cons.mp hy with h1 | h1
    · rw [h1]
      exact le_trans (ih (min a v) (min a v) (List.mem_cons_self _ _)) (min_le_left a v)
    · rcases List.mem_cons.mp h1 with h2 | h2
      · rw [h2]
        exact le_trans (ih (min a v) (min a v) (List.mem_cons_self _ _)) (min_le_right a v)
      · exact ih (min a v) y (List.mem_cons_of_mem _ h2)

theorem foldlMax_mem : ∀ (l : List ℚ) (a : ℚ), l.foldl max a ∈ a :: l := by
  intro l
  induction l with
  | nil => intro a; exact List.mem_cons_self a []
  | cons v t ih =>
    intro a
    rw [List.foldl_cons]
    rcases List.mem_cons.mp (ih (max a v)) with h1 | h1
    · rcases max_choice a v with hm | hm
      · rw [h1, hm]; exact List.mem_cons_self _ _
      · rw [h1, hm]
        exact List.mem_cons_of_mem _ (List.mem_cons_self _ _)
    · exact List.mem_cons_of_mem _ (List.mem_cons_of_mem _ h1)

theorem foldlMax_le : ∀ (l : List ℚ) (a y : ℚ), y ∈ a :: l → y ≤ l.foldl max a := by
  intro l
  induction l with
  | nil =>
    intro a y hy
    rcases List.mem_cons.mp hy with h | h
    · rw [h]; exact le_refl a
    · simp at h
  | cons v t ih =>
    intro a y hy
    rw [List.foldl_cons]
    rcases List.mem_cons.mp hy with h1 | h1
    · rw [h1]
      exact le_trans (le_max_left a v) (ih (max a v) (max a v) (List.mem_cons_self _ _))
    · rcases List.mem_cons.mp h1 with h2 | h2
      · rw [h2]
        exact le_trans (le_max_right a v) (ih (max a v) (max a v) (List.mem_cons_self _ _))
      · exact ih (max a v) y (List.mem_cons_of_mem _ h2)


/-! ### Group-free multi-aggregate executor characterization (C4) -/

theorem lookup_mapSet_ne {β : Type} :
    ∀ (m : List (List Char × β)) (k k' : List Char) (v : β), k' ≠ k →
      List.lookup k (mapSet m k' v) = List.lookup k m := by
  intro m
  induction m with
  | nil =>
    intro k k' v hne
    show List.lookup k [(k', v)] = none
    rw [lookup_cons_neL k [] (k', v) hne]
    rfl
  | cons p t ih =>
    intro k k' v hne
    unfold mapSet
    by_cases h : p.1 = k'
    · rw [if_pos h]
      have hpk : p.1 ≠ k := by rw [h]; exact hne
      rw [lookup_cons_neL k t (k', v) hne, lookup_cons_neL k t p hpk]
    · rw [if_neg h]
      by_cases h2 : p.1 = k
      · rw [lookup_cons_eqL k _ p h2, lookup_cons_eqL k t p h2]
      · rw [lookup_cons_neL k _ p h2, lookup_cons_neL k t p h2]
        exact ih k k' v hne

theorem aggInit_eq_none_iff (t : AggregationType) :
    aggInit t = none ↔ t = AggregationType.NONE := by
  cases t <;> simp [aggInit]

theorem addAggregator_lookup_ne (a : AggregateResult) (d : Column) (k : List Char)
    (hne : d.name ≠ k) :
    List.lookup k (a.addAggregator d.name d.aggregation).aggregators
      = List.lookup k a.aggregators := by
  unfold AggregateResult.addAggregator
  cases hinit : aggInit d.aggregation with
  | none => rfl
  | some st =>
    show List.lookup k (mapSet a.aggregators d.name st) = _
    exact lookup_mapSet_ne a.aggregators k d.name st hne

/-- Registration columns that do not target key `k` leave it unbound. -/
theorem reg_preserve (k : List Char) :
    ∀ (cols : List Column) (a : AggregateResult),
      cols.filter (sameAggKey k) = [] →
      List.lookup k ((cols.foldl
        (fun (a : AggregateResult) c =>
          if c.aggregation ≠ AggregationType.NONE
          then a.addAggregator c.name c.aggregation else a) a).aggregators)
        = List.lookup k a.aggregators := by
  intro cols
  induction cols with
  | nil => intro a _; rfl
  | cons d t ih =>
    intro a hf
    rw [List.filter_cons] at hf
    by_cases hd : sameAggKey k d
    · rw [if_pos (by simpa using hd)] at hf
      exact absurd hf (List.cons_ne_nil d _)
    · rw [if_neg (by simpa using hd)] at hf
      rw [List.foldl_cons]
      have hone : List.lookup k
          ((if d.aggregation ≠ AggregationType.NONE
            then a.addAggregator d.name d.aggregation else a).aggregators)
          = List.lookup k a.aggregators := by
        by_cases h1 : d.aggregation = AggregationType.NONE
        · rw [if_neg (not_not_intro h1)]
        · rw [if_pos h1]
          have hne : d.name ≠ k := by
            unfold sameAggKey at hd
            simp only [Bool.and_eq_true, decide_eq_true_eq, not_and] at hd
            exact hd h1
          exact addAggregator_lookup_ne a d k hne
      rw [ih _ hf, hone]

/-- After registration the unique aggregated column named `k` is bound to its
fresh aggregator. -/
theorem reg_hit (c : Column) :
    ∀ (cols : List Column) (a : AggregateResult),
      cols.filter (sameAggKey c.name) = [c] →
      List.lookup c.name ((cols.foldl
        (fun (a : AggregateResult) d =>
          if d.aggregation ≠ AggregationType.NONE
          then a.addAggregator d.name d.aggregation else a) a).aggregators)
        = aggInit c.aggregation := by
  intro cols
  induction cols with
  | nil => intro a hf; simp at hf
  | cons d t ih =>
    intro a hf
    rw [List.filter_cons] at hf
    by_cases hd : sameAggKey c.name d
    · rw [if_pos (by simpa using hd)] at hf
      injection hf with hdc hft
      subst hdc
      have h0 : d.aggregation ≠ AggregationType.NONE := by
        unfold sameAggKey at hd
        simp only [Bool.and_eq_true, decide_eq_true_eq] at hd
        exact hd.1
      rw [List.foldl_cons, if_pos h0]
      rw [reg_preserve d.name t _ hft]
      unfold AggregateResult.addAggregator
      cases hinit : aggInit d.aggregation with
      | none => exact absurd ((aggInit_eq_none_iff d.aggregation).mp hinit) h0
      | some st =>
        show List.lookup d.name (mapSet a.aggregators d.name st) = _
        rw [lookup_mapSet_self]
    · rw [if_neg (by simpa using hd)] at hf
      rw [List.foldl_cons]
      rw [ih _ hf]

/-- One column's update, phrased as an `Option.map` of `singleStep` (covers
the COUNT case too). -/
theorem applyCol_self_map (r : Row) (c : Column) (b : AggregateResult)
    (h0 : c.aggregation ≠ AggregationType.NONE) :
    List.lookup c.name (applyCol r b c).aggregators
      = (List.lookup c.name b.aggregators).map
          (fun s => singleStep c.aggregation c.name s r) := by
  by_cases hc : c.aggregation = AggregationType.COUNT
  · unfold applyCol
    rw [if_neg h0, if_pos hc]
    show List.lookup c.name (arAddValue b.aggregators c.name 1) = _
    rw [lookup_arAddValue_eq]
    have hfun : (fun s => singleStep c.aggregation c.name s r)
        = fun s => aggAdd s 1 := by
      funext s
      unfold singleStep
      rw [if_pos hc]
    rw [hfun]
  · rw [applyCol_self r c b h0 hc]
    have hfun : (fun s => singleStep c.aggregation c.name s r)
        = fun s => match (rowFind r c.name).bind parseNum with
          | none => s
          | some v => aggAdd s v := by
      funext s
      unfold singleStep
      rw [if_neg hc]
    rw [hfun]
    cases hv : (rowFind r c.name).bind parseNum with
    | none => cases hlb : List.lookup c.name b.aggregators <;> simp [hlb]
    | some v => cases hlb : List.lookup c.name b.aggregators <;> simp [hlb]

/-- One `processRow` column loop, phrased as an `Option.map`. -/
theorem fold_applyCol_lookup_map (r : Row) (c : Column)
    (h0 : c.aggregation ≠ AggregationType.NONE) :
    ∀ (cols : List Column) (b : AggregateResult),
      cols.filter (sameAggKey c.name) = [c] →
      List.lookup c.name ((cols.foldl (applyCol r) b).aggregators)
        = (List.lookup c.name b.aggregators).map
            (fun s => singleStep c.aggregation c.name s r) := by
  intro cols
  induction cols with
  | nil => intro b hf; simp at hf
  | cons d t ih =>
    intro b hf
    rw [List.filter_cons] at hf
    by_cases hd : sameAggKey c.name d
    · rw [if_pos (by simpa using hd)] at hf
      injection hf with hdc hft
      subst hdc
      show List.lookup d.name ((t.foldl (applyCol r) (applyCol r b d)).aggregators) = _
      rw [fold_applyCol_preserve r d.name t (applyCol r b d) hft]
      exact applyCol_self_map r d b h0
    · rw [if_neg (by simpa using hd)] at hf
      show List.lookup c.name ((t.foldl (applyCol r) (applyCol r b d)).aggregators) = _
      rw [ih (applyCol r b d) hf,
        applyCol_preserve r c.name d b (by simpa using hd)]

/-- The whole dispatch pass, per key: the unique aggregated column named
`c.name` ends in the fold of its per-row `singleStep` updates. -/
theorem dispatch_fold_lookup (q : Query) (c : Column)
    (h0 : c.aggregation ≠ AggregationType.NONE)
    (huniq : q.columns.filter (sameAggKey c.name) = [c]) :
    ∀ (D : List Row) (b : AggregateResult),
      List.lookup c.name
        ((D.foldl (fun b r => q.columns.foldl (applyCol r) b) b).aggregators)
        = (List.lookup c.name b.aggregators).map
            (fun s => D.foldl (singleStep c.aggregation c.name) s) := by
  intro D
  induction D with
  | nil =>
    intro b
    cases hlb : List.lookup c.name b.aggregators <;> simp [hlb]
  | cons r D' ih =>
    intro b
    rw [List.foldl_cons]
    rw [ih (q.columns.foldl (applyCol r) b),
      fold_applyCol_lookup_map r c h0 q.columns b huniq, Option.map_map]
    congr 1

theorem groupKey_groupfree (q : Query) (hgb : q.group_by_columns = []) (r : Row) :
    groupKey q r = strL "default" := by
  unfold groupKey
  rw [if_pos hgb]

theorem freshBundle_groupfree (q : Query) (hgb : q.group_by_columns = []) (r : Row) :
    freshBundle q r = ⟨(q.columns.foldl
      (fun (a : AggregateResult) c =>
        if c.aggregation ≠ AggregationType.NONE
        then a.addAggregator c.name c.aggregation else a) ⟨[], []⟩).aggregators, []⟩ := by
  unfold freshBundle groupValues
  rw [hgb]
  rfl

theorem processRow_groupfree_empty (q : Query) (hgb : q.group_by_columns = [])
    (r : Row) :
    processRow q [] r
      = [(strL "default", q.columns.foldl (applyCol r) (freshBundle q r))] := by
  unfold processRow ensureGroup
  rw [groupKey_groupfree q hgb r, if_neg (by simp [List.lookup])]
  simp only [mapSet]
  rw [mapUpdate_singleton]

theorem processRow_groupfree_existing (q : Query) (hgb : q.group_by_columns = [])
    (r : Row) (B : AggregateResult) :
    processRow q [(strL "default", B)] r
      = [(strL "default", q.columns.foldl (applyCol r) B)] := by
  unfold processRow ensureGroup
  rw [groupKey_groupfree q hgb r]
  rw [if_pos (by
    rw [lookup_cons_eqL (strL "default") [] ((strL "default"), B) rfl]
    rfl)]
  rw [mapUpdate_singleton]

theorem dispatch_groupfree (q : Query) (hgb : q.group_by_columns = []) :
    ∀ (D : List Row) (B : AggregateResult),
      dispatchAll q D [(strL "default", B)]
        = [(strL "default",
            D.foldl (fun b r => q.columns.foldl (applyCol r) b) B)] := by
  intro D
  induction D with
  | nil => intro B; rfl
  | cons r D' ih =>
    intro B
    show dispatchAll q D' (processRow q [(strL "default", B)] r) = _
    rw [processRow_groupfree_existing q hgb r B, ih, List.foldl_cons]

theorem filter_sameAggKey_decomp (k : List Char) :
    ∀ (cols : List Column),
      cols.filter (sameAggKey k)
        = (cols.filter (fun d => decide (d.aggregation ≠ AggregationType.NONE))).filter
            (fun d => decide (d.name = k)) := by
  intro cols
  rw [List.filter_filter]
  exact List.filter_congr (fun d _ => Bool.and_comm _ _)

/-- In a list of columns with pairwise-distinct names, filtering by a
member's name isolates exactly that member. -/
theorem filter_name_nodup :
    ∀ (l : List Column), (l.map (fun d => d.name)).Nodup →
      ∀ c ∈ l, l.filter (fun d => decide (d.name = c.name)) = [c] := by
  intro l
  induction l with
  | nil => intro _ c hc; simp at hc
  | cons d t ih =>
    intro hn c hc
    rw [List.map_cons, List.nodup_cons] at hn
    rcases List.mem_cons.mp hc with hcd | hct
    · subst hcd
      rw [List.filter_cons, if_pos (by simp)]
      have hnil : t.filter (fun d => decide (d.name = c.name)) = [] := by
        rw [List.filter_eq_nil_iff]
        intro e he
        simp only [decide_eq_true_eq]
        intro heq
        exact hn.1 (heq ▸ List.mem_map_of_mem _ he)
      rw [hnil]
    · have hdc : ¬(d.name = c.name) := by
        intro he
        exact hn.1 (he ▸ List.mem_map_of_mem _ hct)
      rw [List.filter_cons, if_neg (by simpa using hdc)]
      exact ih hn.2 c hct

theorem forall₂_map_self {α β : Type} (P : α → β → Prop) (f : α → β) :
    ∀ (l : List α), (∀ a ∈ l, P a (f a)) → List.Forall₂ P l (l.map f) := by
  intro l
  induction l with
  | nil => intro _; exact List.Forall₂.nil
  | cons a t ih =>
    intro h
    exact List.Forall₂.cons (h a (List.mem_cons_self a t))
      (ih (fun b hb => h b (List.mem_cons_of_mem a hb)))

/-- AVG over the numeric cells, with the empty case included (`0/0 = 0` in
both the code and the rational model). -/
theorem avg_state_value (nl : List ℚ) :
    aggResult (nl.foldl aggAdd (AggState.avg 0 0))
      = nl.sum / (nl.length : ℚ) := by
  rw [foldl_aggAdd_avg]
  simp only [zero_add, Nat.zero_add]
  show (if 0 < nl.length then nl.sum / (nl.length : ℚ) else 0) = _
  by_cases h : 0 < nl.length
  · rw [if_pos h]
  · rw [if_neg h]
    have hz : nl.length = 0 := by omega
    rw [hz]
    simp

unseal Rat.mul Rat.add Rat.sub Rat.inv in
/-- C4 (counterexample). The claim's full quantification over sampling-free
queries fails: in `SELECT SUM(value), AVG(value) FROM data` both aggregates
register under the source key `value` (the C2 collision), the AVG aggregator
overwrites the SUM one and receives every value twice, and the SUM cell
carries 200 on the scenario table — not the arithmetic sum 1000. -/
theorem C4_counterexample :
    parse (strL "SELECT SUM(value), AVG(value) FROM data") = Except.ok sumAvgQuery
    ∧ (executeNoSampling sumAvgQuery scenarioData).rows
        = [[Cell.num 200, Cell.num 200]]
    ∧ (numericList scenarioData (strL "value")).sum = 1000
    ∧ (200 : ℚ) ≠ 1000 := by
  refine ⟨by decide, by decide, by decide, by decide⟩

/-- C4 (amended). For every non-empty dataset and every sampling-free,
GROUP-BY-free query whose aggregated columns have pairwise-distinct source
names (the C4 counterexample forces this exclusion): execute produces
exactly one result row in which every COUNT cell equals `|D|`, every
`SUM(x)` cell equals the arithmetic sum of the numeric `x` values, every
`AVG(x)` cell equals that sum divided by the number of numeric `x` values,
and every `MIN(x)`/`MAX(x)` cell equals the minimum/maximum of the numeric
`x` values whenever at least one `x` cell is numeric. -/
theorem C4_unsampled_aggregates_amended (q : Query) (D : List Row)
    (hD : D ≠ [])
    (_hns : q.sampling.method = SamplingMethod.NONE)
    (hgb : q.group_by_columns = [])
    (hnodup : ((q.columns.filter
        (fun d => decide (d.aggregation ≠ AggregationType.NONE))).map
        (fun d => d.name)).Nodup) :
    ∃ R : List Cell,
      (executeNoSampling q D).rows = [R]
      ∧ List.Forall₂ (fun (c : Column) (cell : Cell) =>
          (c.aggregation = AggregationType.COUNT →
            cell = Cell.num (D.length : ℚ))
          ∧ (c.aggregation = AggregationType.SUM →
            cell = Cell.num (numericList D c.name).sum)
          ∧ (c.aggregation = AggregationType.AVG →
            cell = Cell.num ((numericList D c.name).sum
              / ((numericList D c.name).length : ℚ)))
          ∧ (c.aggregation = AggregationType.MIN → numericList D c.name ≠ [] →
            ∃ mn : ℚ, cell = Cell.num mn ∧ mn ∈ numericList D c.name
              ∧ ∀ y ∈ numericList D c.name, mn ≤ y)
          ∧ (c.aggregation = AggregationType.MAX → numericList D c.name ≠ [] →
            ∃ mx : ℚ, cell = Cell.num mx ∧ mx ∈ numericList D c.name
              ∧ ∀ y ∈ numericList D c.name, y ≤ mx))
        q.columns R := by
  obtain ⟨r, D', rfl⟩ : ∃ r D', D = r :: D' := by
    cases D with
    | nil => exact absurd rfl hD
    | cons r D' => exact ⟨r, D', rfl⟩
  -- the single bundle produced by the dispatch pass
  have hdisp : dispatchAll q (r :: D') []
      = [(strL "default",
          (r :: D').foldl (fun b r => q.columns.foldl (applyCol r) b)
            (freshBundle q r))] := by
    show dispatchAll q D' (processRow q [] r) = _
    rw [processRow_groupfree_empty q hgb r,
      dispatch_groupfree q hgb D' (q.columns.foldl (applyCol r) (freshBundle q r)),
      List.foldl_cons]
  have hrows : (executeNoSampling q (r :: D')).rows
      = [materializeRow q false 1
          ((r :: D').foldl (fun b r => q.columns.foldl (applyCol r) b)
            (freshBundle q r))] := by
    unfold executeNoSampling executeCore
    rw [hdisp]
    rfl
  -- the per-key aggregator state in that bundle
  have hlook : ∀ c ∈ q.columns, c.aggregation ≠ AggregationType.NONE →
      List.lookup c.name
        ((r :: D').foldl (fun b r => q.columns.foldl (applyCol r) b)
          (freshBundle q r)).aggregators
        = (aggInit c.aggregation).map
            (fun s0 => (r :: D').foldl (singleStep c.aggregation c.name) s0) := by
    intro c hc h0
    have huniqc : q.columns.filter (sameAggKey c.name) = [c] := by
      rw [filter_sameAggKey_decomp]
      exact filter_name_nodup _ hnodup c
        (List.mem_filter.mpr ⟨hc, by simpa using h0⟩)
    rw [dispatch_fold_lookup q c h0 huniqc (r :: D') (freshBundle q r)]
    congr 1
    rw [freshBundle_groupfree q hgb r]
    exact reg_hit c q.columns ⟨[], []⟩ huniqc
  refine ⟨materializeRow q false 1
      ((r :: D').foldl (fun b r => q.columns.foldl (applyCol r) b)
        (freshBundle q r)), hrows, ?_⟩
  unfold materializeRow
  apply forall₂_map_self
  intro c hc
  by_cases h0 : c.aggregation = AggregationType.NONE
  · refine ⟨?_, ?_, ?_, ?_, ?_⟩ <;> intro hk <;> rw [h0] at hk <;> exact
      absurd hk (by decide)
  -- aggregated column: the cell is the aggregator's result
  have hcell : (if c.aggregation = AggregationType.NONE then
        Cell.raw (((q.group_by_columns.zip
          ((r :: D').foldl (fun b r => q.columns.foldl (applyCol r) b)
            (freshBundle q r)).group_by_values).lookup c.name).getD [])
      else Cell.num (if false ∧ (c.aggregation = AggregationType.COUNT
          ∨ c.aggregation = AggregationType.SUM)
        then ((r :: D').foldl (fun b r => q.columns.foldl (applyCol r) b)
            (freshBundle q r)).getResultA c.name * 1
        else ((r :: D').foldl (fun b r => q.columns.foldl (applyCol r) b)
            (freshBundle q r)).getResultA c.name))
      = Cell.num (((r :: D').foldl (fun b r => q.columns.foldl (applyCol r) b)
          (freshBundle q r)).getResultA c.name) := by
    rw [if_neg h0]
    simp
  rw [hcell]
  have hres : ∀ s0 : AggState, aggInit c.aggregation = some s0 →
      ((r :: D').foldl (fun b r => q.columns.foldl (applyCol r) b)
        (freshBundle q r)).getResultA c.name
        = aggResult ((r :: D').foldl (singleStep c.aggregation c.name) s0) := by
    intro s0 hs0
    unfold AggregateResult.getResultA
    rw [hlook c hc h0, hs0]
    rfl
  refine ⟨?_, ?_, ?_, ?_, ?_⟩
  · -- COUNT
    intro hk
    have := hres (AggState.count 0) (by rw [hk]; rfl)
    rw [this, hk, foldl_singleStep_count c.name (r :: D') 0]
    simp [aggResult]
  · -- SUM
    intro hk
    have := hres (AggState.sum 0) (by rw [hk]; rfl)
    rw [this, hk,
      foldl_singleStep_numeric AggregationType.SUM c.name (by decide) (r :: D'),
      foldl_aggAdd_sum]
    simp [aggResult]
  · -- AVG
    intro hk
    have := hres (AggState.avg 0 0) (by rw [hk]; rfl)
    rw [this, hk,
      foldl_singleStep_numeric AggregationType.AVG c.name (by decide) (r :: D'),
      avg_state_value]
  · -- MIN
    intro hk hnl
    have := hres (AggState.amin 0 false) (by rw [hk]; rfl)
    rw [this, hk,
      foldl_singleStep_numeric AggregationType.MIN c.name (by decide) (r :: D')]
    obtain ⟨v, vs, hvl⟩ : ∃ v vs, numericList (r :: D') c.name = v :: vs := by
      cases hx : numericList (r :: D') c.name with
      | nil => exact absurd hx hnl
      | cons v vs => exact ⟨v, vs, rfl⟩
    rw [hvl, List.foldl_cons]
    show ∃ mn, Cell.num (aggResult (vs.foldl aggAdd (AggState.amin v true)))
        = Cell.num mn ∧ mn ∈ v :: vs ∧ ∀ y ∈ v :: vs, mn ≤ y
    rw [foldl_aggAdd_min_true]
    exact ⟨vs.foldl min v, rfl, foldlMin_mem vs v, fun y hy => foldlMin_le vs v y hy⟩
  · -- MAX
    intro hk hnl
    have := hres (AggState.amax 0 false) (by rw [hk]; rfl)
    rw [this, hk,
      foldl_singleStep_numeric AggregationType.MAX c.name (by decide) (r :: D')]
    obtain ⟨v, vs, hvl⟩ : ∃ v vs, numericList (r :: D') c.name = v :: vs := by
      cases hx : numericList (r :: D') c.name with
      | nil => exact absurd hx hnl
      | cons v vs => exact ⟨v, vs, rfl⟩
    rw [hvl, List.foldl_cons]
    show ∃ mx, Cell.num (aggResult (vs.foldl aggAdd (AggState.amax v true)))
        = Cell.num mx ∧ mx ∈ v :: vs ∧ ∀ y ∈ v :: vs, y ≤ mx
    rw [foldl_aggAdd_max_true]
    exact ⟨vs.foldl max v, rfl, foldlMax_mem vs v, fun y hy => foldlMax_le vs v y hy⟩

unseal Rat.mul Rat.add Rat.sub Rat.inv in
/-- C4 (amended, witness): `SELECT COUNT(category), SUM(value) FROM data`
(two aggregates over distinct source columns) on the scenario table. -/
theorem C4_unsampled_aggregates_amended_witness :
    scenarioData ≠ []
    ∧ countSumQuery.sampling.method = SamplingMethod.NONE
    ∧ countSumQuery.group_by_columns = []
    ∧ ((countSumQuery.columns.filter
        (fun d => decide (d.aggregation ≠ AggregationType.NONE))).map
        (fun d => d.name)).Nodup
    ∧ (∃ R : List Cell,
        (executeNoSampling countSumQuery scenarioData).rows = [R]
        ∧ List.Forall₂ (fun (c : Column) (cell : Cell) =>
            (c.aggregation = AggregationType.COUNT →
              cell = Cell.num (scenarioData.length : ℚ))
            ∧ (c.aggregation = AggregationType.SUM →
              cell = Cell.num (numericList scenarioData c.name).sum)
            ∧ (c.aggregation = AggregationType.AVG →
              cell = Cell.num ((numericList scenarioData c.name).sum
                / ((numericList scenarioData c.name).length : ℚ)))
            ∧ (c.aggregation = AggregationType.MIN →
              numericList scenarioData c.name ≠ [] →
              ∃ mn : ℚ, cell = Cell.num mn ∧ mn ∈ numericList scenarioData c.name
                ∧ ∀ y ∈ numericList scenarioData c.name, mn ≤ y)
            ∧ (c.aggregation = AggregationType.MAX →
              numericList scenarioData c.name ≠ [] →
              ∃ mx : ℚ, cell = Cell.num mx ∧ mx ∈ numericList scenarioData c.name
                ∧ ∀ y ∈ numericList scenarioData c.name, y ≤ mx))
          countSumQuery.columns R) :=
  ⟨by decide, rfl, rfl, by decide,
    C4_unsampled_aggregates_amended countSumQuery scenarioData
      (by decide) rfl rfl (by decide)⟩

end AQE
